import Mathlib

/-!
Verification development for the e-gov statute crawler (`src/main.rs`).

Strings are modelled as `List Char` (Rust `&str` operations in the source are
all `char`-level).  Each definition mirrors one function of the source file.
-/

set_option maxRecDepth 10000

/-- Unicode White_Space, as used by Rust `char::is_whitespace`. -/
def rustIsWhitespace (c : Char) : Bool :=
  c.toNat ∈ [0x09, 0x0A, 0x0B, 0x0C, 0x0D, 0x20, 0x85, 0xA0, 0x1680,
    0x2000, 0x2001, 0x2002, 0x2003, 0x2004, 0x2005, 0x2006, 0x2007, 0x2008,
    0x2009, 0x200A, 0x2028, 0x2029, 0x202F, 0x205F, 0x3000]

/-- Characters forbidden in note file names (`sanitize_filename`). -/
def forbiddenFileChar (c : Char) : Bool :=
  c ∈ ['/', '\\', ':', '*', '?', '"', '<', '>', '|']

/-- Rust `str::trim`: drop whitespace from both ends. -/
def rustTrim (s : List Char) : List Char :=
  ((s.dropWhile rustIsWhitespace).reverse.dropWhile rustIsWhitespace).reverse

/-- Drop every trailing occurrence of `c` (Rust `trim_end_matches(c)`). -/
def trimEndChar (c : Char) (s : List Char) : List Char :=
  (s.reverse.dropWhile (· = c)).reverse

/-- `sanitize_filename`: replace path-hostile characters by an underscore,
then trim surrounding whitespace, then trim trailing periods. -/
def sanitize_filename (s : List Char) : List Char :=
  trimEndChar '.' (rustTrim (s.map fun c => if forbiddenFileChar c then '_' else c))

/-- Character class of `LAW_TOKEN_RE` in `normalize_law_ref_title`:
`[一-龥ァ-ヶーA-Za-z0-9・]`. -/
def lawTokenChar (c : Char) : Bool :=
  (0x4E00 ≤ c.toNat ∧ c.toNat ≤ 0x9FA5) ∨
  (0x30A1 ≤ c.toNat ∧ c.toNat ≤ 0x30F6) ∨
  c = 'ー' ∨
  ('A' ≤ c ∧ c ≤ 'Z') ∨ ('a' ≤ c ∧ c ≤ 'z') ∨ ('0' ≤ c ∧ c ≤ '9') ∨
  c = '・'

/-- The statute-type suffix alternatives, in the alternation order of the
source regexes: `法|法律|政令|省令|府令|規則|条例|条約`. -/
def lawSuffixes : List (List Char) :=
  [['法'], ['法', '律'], ['政', '令'], ['省', '令'], ['府', '令'],
   ['規', '則'], ['条', '例'], ['条', '約']]

/-- First suffix alternative (in alternation order) that is a prefix of `s`,
returned as its length.  Models the trailing `(?:法|法律|…)` group under
leftmost-first (Perl-style) alternation semantics of the `regex` crate. -/
def matchSuffixLen (s : List Char) : Option Nat :=
  (lawSuffixes.find? fun suf => suf.isPrefixOf s).map List.length

/-- Greedy backtracking for `[class]{1,30}` followed by the suffix group:
try `k` class characters (largest first), then the suffix alternation. -/
def tokenTryK (s : List Char) : Nat → Option Nat
  | 0 => none
  | k + 1 =>
    match matchSuffixLen (s.drop (k + 1)) with
    | some m => some (k + 1 + m)
    | none => tokenTryK s k

/-- Length of the `LAW_TOKEN_RE` match starting at the head of `s`
(greedy `{1,30}` on the class, then the suffix alternation), if any. -/
def lawTokenMatchLen (s : List Char) : Option Nat :=
  tokenTryK s (min 30 (s.takeWhile lawTokenChar).length)

theorem matchSuffixLen_pos {s : List Char} {m : Nat}
    (h : matchSuffixLen s = some m) : 1 ≤ m := by
  unfold matchSuffixLen at h
  rcases h' : lawSuffixes.find? fun suf => suf.isPrefixOf s with _ | suf
  · rw [h'] at h; simp at h
  · rw [h'] at h
    simp at h
    have hmem := List.mem_of_find?_eq_some h'
    subst h
    fin_cases hmem <;> simp

theorem lawTokenMatchLen_pos {s : List Char} {n : Nat}
    (h : lawTokenMatchLen s = some n) : 1 ≤ n := by
  unfold lawTokenMatchLen at h
  generalize hk : min 30 (s.takeWhile lawTokenChar).length = k at h
  clear hk
  induction k with
  | zero => simp [tokenTryK] at h
  | succ k ih =>
    rw [tokenTryK] at h
    rcases h' : matchSuffixLen (s.drop (k + 1)) with _ | m
    · rw [h'] at h; exact ih h
    · rw [h'] at h; cases h; omega

/-- Fuelled scan for `lawTokenMatches` (the fuel strictly exceeds the
number of scan steps, so the public wrapper below always has enough). -/
def lawTokenMatchesF : Nat → List Char → List (List Char)
  | _, [] => []
  | 0, _ :: _ => []
  | fuel + 1, c :: cs =>
    match lawTokenMatchLen (c :: cs) with
    | some n => (c :: cs).take n :: lawTokenMatchesF fuel ((c :: cs).drop n)
    | none => lawTokenMatchesF fuel cs

/-- All (non-overlapping, leftmost-first) matches of `LAW_TOKEN_RE` in `s`,
in order (`Regex::find_iter`). -/
def lawTokenMatches (s : List Char) : List (List Char) :=
  lawTokenMatchesF s.length s

theorem lawTokenMatchesF_fuel :
    ∀ fuel fuel2 s, s.length ≤ fuel → s.length ≤ fuel2 →
      lawTokenMatchesF fuel s = lawTokenMatchesF fuel2 s := by
  intro fuel
  induction fuel with
  | zero =>
    intro fuel2 s hs _
    rw [List.length_eq_zero.mp (Nat.le_zero.mp hs)]
    cases fuel2 <;> rfl
  | succ fuel ih =>
    intro fuel2 s hs hs2
    rcases s with _ | ⟨c, cs⟩
    · cases fuel2 <;> rfl
    · rcases fuel2 with _ | fuel2
      · simp at hs2
      · simp only [lawTokenMatchesF]
        rcases h : lawTokenMatchLen (c :: cs) with _ | n
        · dsimp only
          exact ih fuel2 cs
            (by simp only [List.length_cons] at hs; omega)
            (by simp only [List.length_cons] at hs2; omega)
        · have hpos := lawTokenMatchLen_pos h
          dsimp only
          rw [ih fuel2 ((c :: cs).drop n)
            (by simp only [List.length_drop, List.length_cons] at *; omega)
            (by simp only [List.length_drop, List.length_cons] at *; omega)]

theorem lawTokenMatches_nil : lawTokenMatches [] = [] := rfl

theorem lawTokenMatches_cons_some {c : Char} {cs : List Char} {n : Nat}
    (h : lawTokenMatchLen (c :: cs) = some n) :
    lawTokenMatches (c :: cs) =
      (c :: cs).take n :: lawTokenMatches ((c :: cs).drop n) := by
  have hpos := lawTokenMatchLen_pos h
  unfold lawTokenMatches
  simp only [List.length_cons, lawTokenMatchesF]
  rw [h]
  simp only [List.cons.injEq, true_and]
  exact lawTokenMatchesF_fuel cs.length _ _
    (by simp only [List.length_drop, List.length_cons]; omega) le_rfl

theorem lawTokenMatches_cons_none {c : Char} {cs : List Char}
    (h : lawTokenMatchLen (c :: cs) = none) :
    lawTokenMatches (c :: cs) = lawTokenMatches cs := by
  unfold lawTokenMatches
  simp only [List.length_cons, lawTokenMatchesF]
  rw [h]

/-- The anaphoric self-reference forms rejected by the normalizer. -/
def anaphoricForms : List (List Char) :=
  [['同', '法'], ['同', '法', '律'], ['こ', 'の', '法', '律'],
   ['本', '法'], ['前', '記', '法']]

/-- Punctuation trimmed from both ends at the start of
`normalize_law_ref_title`. -/
def normTrimChar (c : Char) : Bool :=
  c ∈ [' ', '　', '（', '）', '(', ')', '「', '」', '『', '』', '、', '。']

/-- Rust `trim_matches`: drop matching characters from both ends. -/
def trimMatches (p : Char → Bool) (s : List Char) : List Char :=
  ((s.dropWhile p).reverse.dropWhile p).reverse

/-- The amendment-qualifier stripping chain
`strip_prefix("改正前").or_else(‖ "改正後").or_else(‖ "旧").or_else(‖ "新")`:
the first matching word is stripped from the front, else the token is kept. -/
def stripAmendQualifier (t : List Char) : List Char :=
  if (['改', '正', '前'] : List Char).isPrefixOf t then t.drop 3
  else if (['改', '正', '後'] : List Char).isPrefixOf t then t.drop 3
  else if (['旧'] : List Char).isPrefixOf t then t.drop 1
  else if (['新'] : List Char).isPrefixOf t then t.drop 1
  else t

/-- `strip_prefix("中").unwrap_or(token)`. -/
def stripNakaPre (t : List Char) : List Char :=
  if (['中'] : List Char).isPrefixOf t then t.drop 1 else t

/-- The numeral/structural markers stripped from the front of a matched token:
kanji numerals, ASCII digits, `第`, `条`, `項`, `号`. -/
def structMarkerChar (c : Char) : Bool :=
  c ∈ ['一', '二', '三', '四', '五', '六', '七', '八', '九', '十', '百', '千', '〇'] ∨
  ('0' ≤ c ∧ c ≤ '9') ∨ c ∈ ['第', '条', '項', '号']

/-- Does `s` end with one of the statute-type suffixes?  Mirrors the chained
`ends_with` tests guarding the `rsplit_once('中')` branch. -/
def endsWithLawSuffix (s : List Char) : Bool :=
  lawSuffixes.any fun suf => suf.isSuffixOf s

/-- Rust `rsplit_once('中')`: split around the last occurrence of `中`
(working from the reversed list: the part after the last `中` is the
longest `中`-free suffix). -/
def rsplitOnceNaka (s : List Char) : Option (List Char × List Char) :=
  match s.reverse.dropWhile (· ≠ '中') with
  | [] => none
  | _ :: l => some (l.reverse, (s.reverse.takeWhile (· ≠ '中')).reverse)

/-- The `rsplit_once('中')` disambiguation: keep the right-hand part only when
it independently ends in a statute-type suffix. -/
def nakaSplitStep (t : List Char) : List Char :=
  match rsplitOnceNaka t with
  | some (_, right) => if endsWithLawSuffix right then right else t
  | none => t

/-- The stripping pipeline applied to the last regex match: amendment
qualifiers, leading numeral/structural markers, a leading `中`, amendment
qualifiers again, then the `rsplit_once('中')` disambiguation. -/
def stripSteps (token : List Char) : List Char :=
  nakaSplitStep (stripAmendQualifier
    (stripNakaPre ((stripAmendQualifier token).dropWhile structMarkerChar)))

/-- The final acceptance test of the normalizer: re-check the
anaphoric-rejection list, then require at least two characters. -/
def normalizeFinal (t5 : List Char) : Option (List Char) :=
  if t5 ∈ anaphoricForms then none
  else if 2 ≤ t5.length then some t5
  else none

/-- `normalize_law_ref_title`: reduce a raw fragment to a canonical
statute-name token, or `none`. -/
def normalize_law_ref_title (s : List Char) : Option (List Char) :=
  if trimMatches normTrimChar s = [] then none
  else if trimMatches normTrimChar s ∈ anaphoricForms then none
  else
    match (lawTokenMatches (trimMatches normTrimChar s)).getLast? with
    | none => none
    | some token => normalizeFinal (stripSteps token)

theorem mem_of_getLast?_some {α : Type} {l : List α} {a : α}
    (h : l.getLast? = some a) : a ∈ l := by
  induction l with
  | nil => simp at h
  | cons x xs ih =>
    rcases xs with _ | ⟨y, ys⟩
    · simp_all [List.getLast?]
    · rw [List.getLast?_cons_cons] at h
      exact List.mem_cons_of_mem _ (ih h)

theorem suffix_of_suffix_length_le {α : Type} {a b c : List α}
    (h1 : a <:+ c) (h2 : b <:+ c) (h : a.length ≤ b.length) : a <:+ b := by
  rw [← List.reverse_prefix] at h1 h2 ⊢
  exact List.prefix_of_prefix_length_le h1 h2 (by simpa using h)

theorem endsWithLawSuffix_iff {t : List Char} :
    endsWithLawSuffix t = true ↔ ∃ suf ∈ lawSuffixes, suf <:+ t := by
  unfold endsWithLawSuffix
  rw [List.any_eq_true]
  constructor
  · rintro ⟨suf, hmem, hsuf⟩
    exact ⟨suf, hmem, by simpa [List.isSuffixOf] using hsuf⟩
  · rintro ⟨suf, hmem, hsuf⟩
    exact ⟨suf, hmem, by simpa [List.isSuffixOf] using hsuf⟩

theorem lawSuffixes_length_le {suf : List Char} (h : suf ∈ lawSuffixes) :
    suf.length ≤ 2 := by
  fin_cases h <;> simp

theorem stripAmendQualifier_suffix (t : List Char) :
    stripAmendQualifier t <:+ t := by
  unfold stripAmendQualifier
  split_ifs <;> first | exact List.drop_suffix _ _ | exact List.suffix_refl _

theorem stripNakaPre_suffix (t : List Char) : stripNakaPre t <:+ t := by
  unfold stripNakaPre
  split_ifs <;> first | exact List.drop_suffix _ _ | exact List.suffix_refl _

theorem rsplitOnceNaka_suffix {s l r : List Char}
    (h : rsplitOnceNaka s = some (l, r)) : r <:+ s := by
  unfold rsplitOnceNaka at h
  rcases hd : s.reverse.dropWhile (· ≠ '中') with _ | ⟨c, l'⟩
  · rw [hd] at h; simp at h
  · rw [hd] at h
    simp only [Option.some.injEq, Prod.mk.injEq] at h
    obtain ⟨-, hr⟩ := h
    refine ⟨(s.reverse.dropWhile (· ≠ '中')).reverse, ?_⟩
    rw [← hr, ← List.reverse_append, List.takeWhile_append_dropWhile,
      List.reverse_reverse]

theorem nakaSplitStep_cases (t : List Char) :
    nakaSplitStep t = t ∨
      (endsWithLawSuffix (nakaSplitStep t) = true ∧ nakaSplitStep t <:+ t) := by
  unfold nakaSplitStep
  rcases h : rsplitOnceNaka t with _ | ⟨l, r⟩
  · exact Or.inl rfl
  · by_cases he : endsWithLawSuffix r = true
    · exact Or.inr (by simp [he, rsplitOnceNaka_suffix h])
    · simp only [he]
      exact Or.inl (by simp)

theorem stripSteps_suffix (token : List Char) : stripSteps token <:+ token := by
  unfold stripSteps
  have h1 : (stripAmendQualifier token).dropWhile structMarkerChar <:+ token :=
    (List.dropWhile_suffix _).trans (stripAmendQualifier_suffix _)
  have h2 := (stripNakaPre_suffix _).trans h1
  have h3 := (stripAmendQualifier_suffix _).trans h2
  rcases nakaSplitStep_cases (stripAmendQualifier
      (stripNakaPre ((stripAmendQualifier token).dropWhile structMarkerChar))) with
    heq | ⟨-, hsuf⟩
  · rw [heq]; exact h3
  · exact hsuf.trans h3

theorem endsWith_of_suffix_of_two {token t : List Char}
    (he : endsWithLawSuffix token = true) (hsuf : t <:+ token)
    (hlen : 2 ≤ t.length) : endsWithLawSuffix t = true := by
  rw [endsWithLawSuffix_iff] at he ⊢
  obtain ⟨suf, hmem, hsufl⟩ := he
  refine ⟨suf, hmem, ?_⟩
  exact suffix_of_suffix_length_le hsufl hsuf
    (le_trans (lawSuffixes_length_le hmem) hlen)

theorem stripSteps_endsWith {token : List Char}
    (he : endsWithLawSuffix token = true)
    (hlen : 2 ≤ (stripSteps token).length) :
    endsWithLawSuffix (stripSteps token) = true := by
  unfold stripSteps at *
  rcases nakaSplitStep_cases (stripAmendQualifier
      (stripNakaPre ((stripAmendQualifier token).dropWhile structMarkerChar))) with
    heq | ⟨hend, -⟩
  · rw [heq] at hlen ⊢
    have h1 : (stripAmendQualifier token).dropWhile structMarkerChar <:+ token :=
      (List.dropWhile_suffix _).trans (stripAmendQualifier_suffix _)
    exact endsWith_of_suffix_of_two he
      ((stripAmendQualifier_suffix _).trans ((stripNakaPre_suffix _).trans h1)) hlen
  · exact hend

theorem matchSuffixLen_spec {s : List Char} {m : Nat}
    (h : matchSuffixLen s = some m) :
    ∃ suf ∈ lawSuffixes, suf.isPrefixOf s ∧ suf.length = m := by
  unfold matchSuffixLen at h
  rcases h' : lawSuffixes.find? (fun suf => suf.isPrefixOf s) with _ | suf
  · rw [h'] at h; simp at h
  · rw [h'] at h
    simp at h
    have hp := List.find?_some h'
    exact ⟨suf, List.mem_of_find?_eq_some h', by simpa using hp, h⟩

theorem lawTokenMatchLen_endsWith {s : List Char} {n : Nat}
    (h : lawTokenMatchLen s = some n) :
    endsWithLawSuffix (s.take n) = true := by
  unfold lawTokenMatchLen at h
  generalize hk : min 30 (s.takeWhile lawTokenChar).length = k at h
  clear hk
  induction k with
  | zero => simp [tokenTryK] at h
  | succ k ih =>
    rw [tokenTryK] at h
    rcases h' : matchSuffixLen (s.drop (k + 1)) with _ | m
    · rw [h'] at h; exact ih h
    · rw [h'] at h
      cases h
      obtain ⟨suf, hmem, hpre, hlen⟩ := matchSuffixLen_spec h'
      rw [List.isPrefixOf_iff_prefix] at hpre
      have htake : (s.drop (k + 1)).take m = suf := by
        rw [List.prefix_iff_eq_take.mp hpre, hlen]
      rw [List.take_add]
      rw [endsWithLawSuffix_iff]
      exact ⟨suf, hmem, htake ▸ List.suffix_append _ _⟩

theorem lawTokenMatches_spec (s : List Char) :
    ∀ m ∈ lawTokenMatches s, m <:+: s ∧ endsWithLawSuffix m = true := by
  have H : ∀ fuel s, s.length ≤ fuel →
      ∀ m ∈ lawTokenMatches s, m <:+: s ∧ endsWithLawSuffix m = true := by
    intro fuel
    induction fuel with
    | zero =>
      intro s hs m hm
      rw [List.length_eq_zero.mp (Nat.le_zero.mp hs), lawTokenMatches_nil] at hm
      cases hm
    | succ fuel ih =>
      intro s hs m hm
      rcases s with _ | ⟨c, cs⟩
      · rw [lawTokenMatches_nil] at hm
        cases hm
      · rcases h : lawTokenMatchLen (c :: cs) with _ | n
        · rw [lawTokenMatches_cons_none h] at hm
          have := ih cs (by simp at hs; omega) m hm
          exact ⟨List.infix_cons this.1, this.2⟩
        · rw [lawTokenMatches_cons_some h] at hm
          rcases List.mem_cons.mp hm with rfl | hm'
          · exact ⟨List.take_prefix .. |>.isInfix, lawTokenMatchLen_endsWith h⟩
          · have hpos := lawTokenMatchLen_pos h
            have := ih ((c :: cs).drop n)
              (by simp only [List.length_drop, List.length_cons] at *; omega) m hm'
            exact ⟨this.1.trans (List.drop_suffix ..).isInfix, this.2⟩
  exact H s.length s le_rfl

theorem normalize_some_spec {s t : List Char}
    (h : normalize_law_ref_title s = some t) :
    ∃ token ∈ lawTokenMatches (trimMatches normTrimChar s),
      t = stripSteps token ∧ t ∉ anaphoricForms ∧ 2 ≤ t.length := by
  unfold normalize_law_ref_title at h
  split_ifs at h
  rcases hm : (lawTokenMatches (trimMatches normTrimChar s)).getLast? with _ | token
  · rw [hm] at h; simp at h
  · rw [hm] at h
    unfold normalizeFinal at h
    dsimp only at h
    split_ifs at h with h1 h2
    cases h
    exact ⟨token, mem_of_getLast?_some hm, rfl, h1, h2⟩

theorem normalize_endsWith {s t : List Char}
    (h : normalize_law_ref_title s = some t) : endsWithLawSuffix t = true := by
  obtain ⟨token, hmem, rfl, -, hlen⟩ := normalize_some_spec h
  exact stripSteps_endsWith (lawTokenMatches_spec _ token hmem).2 hlen

theorem normalize_infix_trimmed {s t : List Char}
    (h : normalize_law_ref_title s = some t) :
    t <:+: trimMatches normTrimChar s := by
  obtain ⟨token, hmem, rfl, -, -⟩ := normalize_some_spec h
  exact (stripSteps_suffix token).isInfix.trans (lawTokenMatches_spec _ token hmem).1

/-! ## Data model and the name dictionary -/

/-- `LawCandidate`: minimal candidate data from a `/laws` search. -/
structure LawCandidate where
  law_id : Option (List Char)
  law_num : Option (List Char)
  law_title : List Char
  promulgation_date : Option (List Char)
deriving Repr, DecidableEq

/-- `LawContents`: a fetched statute body normalized for note generation. -/
structure LawContents where
  law_id : Option (List Char)
  law_num : Option (List Char)
  law_title : List Char
  markdown : List Char
  original_xml : Option (List Char)
deriving Repr, DecidableEq

/-- One entry of the law-name dictionary. -/
structure LawDictEntry where
  law_id : Option (List Char)
  law_num : Option (List Char)
  law_title : List Char
deriving Repr, DecidableEq

/-- The name dictionary (`HashMap<String, LawDictEntry>`), as an
association list; keys are unique because insertion is guarded by lookup. -/
abbrev LawNameDictionary := List (List Char × LawDictEntry)

/-- `HashMap::get`. -/
def dictGet (d : LawNameDictionary) (k : List Char) : Option LawDictEntry :=
  (d.find? fun p => p.1 = k).map Prod.snd

/-- `HashMap::contains_key`. -/
def dictContains (d : LawNameDictionary) (k : List Char) : Bool :=
  (d.find? fun p => p.1 = k).isSome

/-- `HashMap::insert` (only ever called on absent keys in the source). -/
def dictInsert (d : LawNameDictionary) (k : List Char) (v : LawDictEntry) :
    LawNameDictionary :=
  (k, v) :: d

/-- One iteration of the alias loop of `register_candidate_aliases`:
insert under the normalized alias if the key is absent; track change. -/
def registerAliasStep (entry : LawDictEntry)
    (dc : LawNameDictionary × Bool) (al : List Char) :
    LawNameDictionary × Bool :=
  match normalize_law_ref_title al with
  | some key =>
    if dictGet dc.1 key = none then (dictInsert dc.1 key entry, true) else dc
  | none => dc

/-- `Processor::register_candidate_aliases` acting on the dictionary:
returns the new dictionary and whether anything was inserted. -/
def register_candidate_aliases (dict : LawNameDictionary)
    (query : List Char) (c : LawCandidate) : LawNameDictionary × Bool :=
  let entry : LawDictEntry := ⟨c.law_id, c.law_num, c.law_title⟩
  [query, c.law_title].foldl (registerAliasStep entry) (dict, false)

/-- `Processor::register_law_contents` acting on the dictionary. -/
def register_law_contents (dict : LawNameDictionary) (law : LawContents) :
    LawNameDictionary × Bool :=
  match normalize_law_ref_title law.law_title with
  | some key =>
    if dictGet dict key = none then
      (dictInsert dict key ⟨law.law_id, law.law_num, law.law_title⟩, true)
    else (dict, false)
  | none => (dict, false)

/-- One `/laws` listing item, as consumed by the dictionary-refresh scan
(the fields of `law_info` and `revision_info` that the scan reads). -/
structure ListingLaw where
  law_id : List Char
  law_num : Option (List Char)
  law_title : List Char
  abbrevName : Option (List Char)
deriving Repr, DecidableEq

/-- The raw statute-number insertion of the listing scan: the number is
inserted verbatim (no normalization) if the key is absent. -/
def refreshNumStep (entry : LawDictEntry) (dc : LawNameDictionary × Bool)
    (num? : Option (List Char)) : LawNameDictionary × Bool :=
  match num? with
  | some num =>
    if dictContains dc.1 num = false then (dictInsert dc.1 num entry, true)
    else dc
  | none => dc

/-- The raw abbreviation insertion of the listing scan: the abbreviation is
inserted verbatim if it is not blank and the key is absent. -/
def refreshAbbrevStep (entry : LawDictEntry) (dc : LawNameDictionary × Bool)
    (ab? : Option (List Char)) : LawNameDictionary × Bool :=
  match ab? with
  | some ab =>
    if rustTrim ab ≠ [] ∧ dictContains dc.1 ab = false then
      (dictInsert dc.1 ab entry, true)
    else dc
  | none => dc

/-- The per-item body of `refresh_dictionary_from_api`: a title-normalized
key, then the raw statute number, then the raw abbreviation, each inserted
only if absent. -/
def refreshItemStep (dc : LawNameDictionary × Bool) (it : ListingLaw) :
    LawNameDictionary × Bool :=
  let entry : LawDictEntry := ⟨some it.law_id, it.law_num, it.law_title⟩
  refreshAbbrevStep entry
    (refreshNumStep entry (registerAliasStep entry dc it.law_title) it.law_num)
    it.abbrevName

/-- `refresh_dictionary_from_api`, with the paged listing flattened to the
list of its items (paging is transport glue): returns the updated
dictionary and the `changed` flag. -/
def refresh_dictionary_from_api (items : List ListingLaw)
    (dict : LawNameDictionary) : LawNameDictionary × Bool :=
  items.foldl refreshItemStep (dict, false)

/-- A key that the Title Normalizer can produce for some input. -/
def IsNormalizerOutput (k : List Char) : Prop :=
  ∃ s, normalize_law_ref_title s = some k

/-- The Patent Act's listing entry (`laws_tokkyoho.json` fixture data),
used as a concrete input for the full-listing scan. -/
def patentListing : ListingLaw :=
  ⟨('3' :: '3' :: '4' :: "AC0000000121".data),
   some ("昭和三十四年法律第百二十一号".data),
   "特許法".data, some ("特許法".data)⟩

theorem dictContains_insert {d : LawNameDictionary} {k k' : List Char}
    {v : LawDictEntry} :
    dictContains (dictInsert d k v) k' = true ↔
      k' = k ∨ dictContains d k' = true := by
  simp only [dictContains, dictInsert, List.find?_cons]
  by_cases h : k = k'
  · subst h
    have hd : decide (k = k) = true := by simp
    rw [hd]
    exact iff_of_true rfl (Or.inl rfl)
  · have hd : decide (k = k') = false := by simp [h]
    rw [hd]
    constructor
    · exact fun h2 => Or.inr h2
    · rintro (rfl | h2)
      · exact absurd rfl h
      · exact h2

theorem registerAliasStep_keys {e : LawDictEntry}
    {dc : LawNameDictionary × Bool} {al k : List Char}
    (h : dictContains (registerAliasStep e dc al).1 k = true) :
    dictContains dc.1 k = true ∨ IsNormalizerOutput k := by
  unfold registerAliasStep at h
  rcases hn : normalize_law_ref_title al with _ | key
  · rw [hn] at h; exact Or.inl h
  · rw [hn] at h
    dsimp only at h
    split_ifs at h
    · rcases dictContains_insert.mp h with rfl | hd
      · exact Or.inr ⟨al, hn⟩
      · exact Or.inl hd
    · exact Or.inl h

theorem register_candidate_aliases_keys {dict : LawNameDictionary}
    {query k : List Char} {c : LawCandidate}
    (h : dictContains (register_candidate_aliases dict query c).1 k = true) :
    dictContains dict k = true ∨ IsNormalizerOutput k := by
  unfold register_candidate_aliases at h
  simp only [List.foldl_cons, List.foldl_nil] at h
  rcases registerAliasStep_keys h with h2 | h2
  · rcases registerAliasStep_keys h2 with h3 | h3
    · exact Or.inl h3
    · exact Or.inr h3
  · exact Or.inr h2

theorem register_law_contents_keys {dict : LawNameDictionary}
    {k : List Char} {law : LawContents}
    (h : dictContains (register_law_contents dict law).1 k = true) :
    dictContains dict k = true ∨ IsNormalizerOutput k := by
  unfold register_law_contents at h
  rcases hn : normalize_law_ref_title law.law_title with _ | key
  · rw [hn] at h; exact Or.inl h
  · rw [hn] at h
    dsimp only at h
    split_ifs at h
    · rcases dictContains_insert.mp h with rfl | hd
      · exact Or.inr ⟨law.law_title, hn⟩
      · exact Or.inl hd
    · exact Or.inl h


theorem refreshNumStep_keys {e : LawDictEntry} {dc : LawNameDictionary × Bool}
    {num? : Option (List Char)} {k : List Char}
    (h : dictContains (refreshNumStep e dc num?).1 k = true) :
    dictContains dc.1 k = true ∨ num? = some k := by
  unfold refreshNumStep at h
  rcases num? with _ | num <;> dsimp only at h
  · exact Or.inl h
  · split_ifs at h
    · rcases dictContains_insert.mp h with rfl | hd
      · exact Or.inr rfl
      · exact Or.inl hd
    · exact Or.inl h

theorem refreshAbbrevStep_keys {e : LawDictEntry}
    {dc : LawNameDictionary × Bool} {ab? : Option (List Char)} {k : List Char}
    (h : dictContains (refreshAbbrevStep e dc ab?).1 k = true) :
    dictContains dc.1 k = true ∨ ab? = some k := by
  unfold refreshAbbrevStep at h
  rcases ab? with _ | ab <;> dsimp only at h
  · exact Or.inl h
  · split_ifs at h
    · rcases dictContains_insert.mp h with rfl | hd
      · exact Or.inr rfl
      · exact Or.inl hd
    · exact Or.inl h

theorem refreshItemStep_keys {dc : LawNameDictionary × Bool}
    {it : ListingLaw} {k : List Char}
    (h : dictContains (refreshItemStep dc it).1 k = true) :
    dictContains dc.1 k = true ∨ IsNormalizerOutput k ∨
      it.law_num = some k ∨ it.abbrevName = some k := by
  unfold refreshItemStep at h
  rcases refreshAbbrevStep_keys h with h2 | h2
  · rcases refreshNumStep_keys h2 with h3 | h3
    · rcases registerAliasStep_keys h3 with h4 | h4
      · exact Or.inl h4
      · exact Or.inr (Or.inl h4)
    · exact Or.inr (Or.inr (Or.inl h3))
  · exact Or.inr (Or.inr (Or.inr h2))

theorem refresh_fold_keys (items : List ListingLaw) :
    ∀ (dc : LawNameDictionary × Bool) (k : List Char),
      dictContains (items.foldl refreshItemStep dc).1 k = true →
      dictContains dc.1 k = true ∨ IsNormalizerOutput k ∨
        ∃ it ∈ items, it.law_num = some k ∨ it.abbrevName = some k := by
  induction items with
  | nil => intro dc k h; exact Or.inl h
  | cons it items ih =>
    intro dc k h
    rw [List.foldl_cons] at h
    rcases ih _ _ h with h2 | h2 | ⟨it', hmem, h2⟩
    · rcases refreshItemStep_keys h2 with h3 | h3 | h3 | h3
      · exact Or.inl h3
      · exact Or.inr (Or.inl h3)
      · exact Or.inr (Or.inr ⟨it, List.mem_cons_self .., Or.inl h3⟩)
      · exact Or.inr (Or.inr ⟨it, List.mem_cons_self .., Or.inr h3⟩)
    · exact Or.inr (Or.inl h2)
    · exact Or.inr (Or.inr ⟨it', List.mem_cons_of_mem _ hmem, h2⟩)

theorem refresh_dictionary_from_api_keys {items : List ListingLaw}
    {dict : LawNameDictionary} {k : List Char}
    (h : dictContains (refresh_dictionary_from_api items dict).1 k = true) :
    dictContains dict k = true ∨ IsNormalizerOutput k ∨
      ∃ it ∈ items, it.law_num = some k ∨ it.abbrevName = some k :=
  refresh_fold_keys items (dict, false) k h

theorem not_normalizer_output_of_no_suffix {k : List Char}
    (h : endsWithLawSuffix k = false) : ¬ IsNormalizerOutput k := by
  rintro ⟨s, hs⟩
  rw [normalize_endsWith hs] at h
  exact Bool.noConfusion h

/-! ## The Link Rewriter (`linkify_markdown`) -/

/-- The numeral class `[0-9一二三四五六七八九十百千〇]` of the article /
paragraph / item patterns. -/
def numeralChar (c : Char) : Bool :=
  ('0' ≤ c ∧ c ≤ '9') ∨
  c ∈ ['一', '二', '三', '四', '五', '六', '七', '八', '九', '十', '百', '千', '〇']

/-- The statute-name class of the external-reference pattern:
`[ぁ-んァ-ヶー一-龥A-Za-z0-9・（）()「」『』]`. -/
def extLawChar (c : Char) : Bool :=
  (0x3041 ≤ c.toNat ∧ c.toNat ≤ 0x3093) ∨
  (0x30A1 ≤ c.toNat ∧ c.toNat ≤ 0x30F6) ∨
  c = 'ー' ∨
  (0x4E00 ≤ c.toNat ∧ c.toNat ≤ 0x9FA5) ∨
  ('A' ≤ c ∧ c ≤ 'Z') ∨ ('a' ≤ c ∧ c ≤ 'z') ∨ ('0' ≤ c ∧ c ≤ '9') ∨
  c = '・' ∨ c ∈ ['（', '）', '(', ')', '「', '」', '『', '』']

/-- Head match of `第[numerals]+X` for a closing marker `X` (`条`, `項` or
`号`): the numeral run is greedy and the closing marker must follow. -/
def artMatchLen (last : Char) (s : List Char) : Option Nat :=
  match s with
  | '第' :: cs =>
    let ns := cs.takeWhile numeralChar
    if ns.length = 0 then none
    else if (cs.drop ns.length).head? = some last then some (1 + ns.length + 1)
    else none
  | _ => none

theorem artMatchLen_pos (last : Char) :
    ∀ s n, artMatchLen last s = some n → 1 ≤ n := by
  intro s n h
  unfold artMatchLen at h
  split at h
  · dsimp only at h
    split_ifs at h
    cases h
    omega
  · cases h

/-- Head match of a fixed pattern (Rust `str::replace` semantics). -/
def subMatcher (key : List Char) (s : List Char) : Option Nat :=
  if key ≠ [] ∧ key.isPrefixOf s then some key.length else none

theorem subMatcher_pos (key : List Char) :
    ∀ s n, subMatcher key s = some n → 1 ≤ n := by
  intro s n h
  unfold subMatcher at h
  split_ifs at h with hk
  cases h
  cases hkey : key with
  | nil => exact absurd hkey hk.1
  | cons a l => simp [hkey]

/-- Fuelled scan for `replAll` (fuel = input length always suffices since
matchers consume at least one character). -/
def replAllF (M : List Char → Option Nat) (f : List Char → List Char) :
    Nat → List Char → List Char
  | _, [] => []
  | 0, s => s
  | fuel + 1, c :: cs =>
    match M (c :: cs) with
    | some n => f ((c :: cs).take n) ++ replAllF M f fuel ((c :: cs).drop n)
    | none => c :: replAllF M f fuel cs

/-- `Regex::replace_all`: scan left to right; at each position take the
leftmost-first head match, emit `f` of the matched text and continue after
it, else copy one character.  The positivity witness `hM` guarantees the
fuel below is sufficient. -/
def replAll (M : List Char → Option Nat)
    (hM : ∀ s n, M s = some n → 1 ≤ n)
    (f : List Char → List Char) (s : List Char) : List Char :=
  replAllF M f s.length s

theorem replAllF_fuel (M : List Char → Option Nat)
    (f : List Char → List Char) (hM : ∀ s n, M s = some n → 1 ≤ n) :
    ∀ fuel fuel2 s, s.length ≤ fuel → s.length ≤ fuel2 →
      replAllF M f fuel s = replAllF M f fuel2 s := by
  intro fuel
  induction fuel with
  | zero =>
    intro fuel2 s hs _
    rw [List.length_eq_zero.mp (Nat.le_zero.mp hs)]
    cases fuel2 <;> rfl
  | succ fuel ih =>
    intro fuel2 s hs hs2
    rcases s with _ | ⟨c, cs⟩
    · cases fuel2 <;> rfl
    · rcases fuel2 with _ | fuel2
      · simp at hs2
      · simp only [replAllF]
        rcases h : M (c :: cs) with _ | n
        · dsimp only
          rw [ih fuel2 cs
            (by simp only [List.length_cons] at hs; omega)
            (by simp only [List.length_cons] at hs2; omega)]
        · have hpos := hM _ _ h
          dsimp only
          rw [ih fuel2 ((c :: cs).drop n)
            (by simp only [List.length_drop, List.length_cons] at *; omega)
            (by simp only [List.length_drop, List.length_cons] at *; omega)]

/-- The numeral group of a `第…条/項/号` match (strip `第` and the marker). -/
def artNum (m : List Char) : List Char := (m.drop 1).dropLast

/-- `sanitize_filename` then `dir/file` (`obsidian_note_target`). -/
def obsidian_note_target (dir law_title : List Char) : List Char :=
  let file := sanitize_filename law_title
  if dir = [] then file else dir ++ '/' :: file

/-- `[[{target}#第{n}条|{law}第{n}条]]` (external-reference link text). -/
def extLinkText (dir law ns : List Char) : List Char :=
  ['[', '['] ++ obsidian_note_target dir law ++ ['#', '第'] ++ ns ++
    ['条', '|'] ++ law ++ ['第'] ++ ns ++ ['条', ']', ']']

/-- `[[{target}#第{n}条|第{n}条]]` (same-statute article link text). -/
def sameLinkText (dir title ns : List Char) : List Char :=
  ['[', '['] ++ obsidian_note_target dir title ++ ['#', '第'] ++ ns ++
    ['条', '|', '第'] ++ ns ++ ['条', ']', ']']

/-- `[[{target}#{anchor}|第{n}項]]` / `…号` (paragraph / item link text). -/
def anchorLinkText (dir title anchor ns : List Char) (last : Char) : List Char :=
  ['[', '['] ++ obsidian_note_target dir title ++ ['#'] ++ anchor ++
    ['|', '第'] ++ ns ++ [last, ']', ']']

/-- Replacement for a same-statute article match. -/
def sameRepl (dir title : List Char) (m : List Char) : List Char :=
  sameLinkText dir title (artNum m)

/-- Replacement for a paragraph / item match: a link anchored at the last
article heading when one has been seen, otherwise the text itself. -/
def anchorRepl (dir title : List Char) (anchor : Option (List Char))
    (last : Char) (m : List Char) : List Char :=
  match anchor with
  | some a => anchorLinkText dir title a (artNum m) last
  | none => '第' :: artNum m ++ [last]

/-- One decimal digit character. -/
def digitChar (d : Nat) : Char :=
  ['0', '1', '2', '3', '4', '5', '6', '7', '8', '9'].getD d '0'

/-- Decimal digits of a natural number (`format!("{}", n)`). -/
def natDigitsAux : Nat → Nat → List Char → List Char
  | 0, _, acc => acc
  | fuel + 1, n, acc =>
    if n < 10 then digitChar n :: acc
    else natDigitsAux fuel (n / 10) (digitChar (n % 10) :: acc)

/-- Decimal representation of a natural number. -/
def natDigits (n : Nat) : List Char := natDigitsAux (n + 1) n []

/-- The opaque placeholder `__EXT_LINK_{i}__`. -/
def phKey (i : Nat) : List Char :=
  '_' :: '_' :: 'E' :: 'X' :: 'T' :: '_' :: 'L' :: 'I' :: 'N' :: 'K' :: '_' ::
    natDigits i ++ ['_', '_']

/-- First suffix alternative (in alternation order) that is a prefix of `s`
and is followed by `第[numerals]+条`; returns (suffix length, art length). -/
def findSufArt : List (List Char) → List Char → Option (Nat × Nat)
  | [], _ => none
  | suf :: rest, s =>
    if suf.isPrefixOf s then
      match artMatchLen '条' (s.drop suf.length) with
      | some alen => some (suf.length, alen)
      | none => findSufArt rest s
    else findSufArt rest s

/-- Lazy `{1,40}?` search of the external-reference pattern at the head of
`s`: try `k = 1, 2, …, 40` class characters (shortest first), then the
suffix alternation, then `第[numerals]+条`.  Returns
(class length, suffix length, art length). -/
def extGo (s : List Char) : Nat → Nat → Option (Nat × Nat × Nat)
  | _, 0 => none
  | k, fuel + 1 =>
    if k ≤ s.length ∧ (s.take k).all extLawChar then
      match findSufArt lawSuffixes (s.drop k) with
      | some (sl, al) => some (k, sl, al)
      | none => extGo s (k + 1) fuel
    else none

/-- Head match of the external-reference pattern `ext_article_re`. -/
def extMatchAt (s : List Char) : Option (Nat × Nat × Nat) :=
  extGo s 1 40

theorem extGo_ge {s : List Char} :
    ∀ fuel k k' sl al, extGo s k fuel = some (k', sl, al) → k ≤ k' := by
  intro fuel
  induction fuel with
  | zero => intro k k' sl al h; simp [extGo] at h
  | succ fuel ih =>
    intro k k' sl al h
    rw [extGo] at h
    split_ifs at h
    rcases hf : findSufArt lawSuffixes (s.drop k) with _ | ⟨sl', al'⟩
    · rw [hf] at h
      exact Nat.le_of_succ_le (ih (k + 1) k' sl al h)
    · rw [hf] at h
      cases h
      exact le_rfl

theorem extMatchAt_pos {s : List Char} {k sl al : Nat}
    (h : extMatchAt s = some (k, sl, al)) : 1 ≤ k + sl + al := by
  have := extGo_ge 40 1 k sl al h
  omega

/-- The external-reference `replace_all` closure of `linkify_markdown`:
each match whose name group normalizes to a non-empty token is replaced by
an opaque placeholder and its link text is recorded; other matches are kept
verbatim.  `i` is the running placeholder counter. -/
def extScanF (linkDir : List Char) :
    Nat → Nat → List Char → List Char × List (List Char × List Char)
  | _, _, [] => ([], [])
  | 0, _, s => (s, [])
  | fuel + 1, i, c :: cs =>
    match extMatchAt (c :: cs) with
    | some (k, sl, al) =>
      let n := k + sl + al
      let lawRaw := (c :: cs).take (k + sl)
      let law := (normalize_law_ref_title lawRaw).getD []
      if law = [] then
        let r := extScanF linkDir fuel i ((c :: cs).drop n)
        ((c :: cs).take n ++ r.1, r.2)
      else
        let ns := (((c :: cs).drop (k + sl)).drop 1).take (al - 2)
        let key := phKey i
        let link := extLinkText linkDir law ns
        let r := extScanF linkDir fuel (i + 1) ((c :: cs).drop n)
        (key ++ r.1, (key, link) :: r.2)
    | none =>
      let r := extScanF linkDir fuel i cs
      (c :: r.1, r.2)

/-- The public external-reference scan (fuel = input length suffices since
every match consumes at least one character). -/
def extScan (linkDir : List Char) (i : Nat) (s : List Char) :
    List Char × List (List Char × List Char) :=
  extScanF linkDir s.length i s

theorem extScanF_fuel (linkDir : List Char) :
    ∀ fuel fuel2 i s, s.length ≤ fuel → s.length ≤ fuel2 →
      extScanF linkDir fuel i s = extScanF linkDir fuel2 i s := by
  intro fuel
  induction fuel with
  | zero =>
    intro fuel2 i s hs _
    rw [List.length_eq_zero.mp (Nat.le_zero.mp hs)]
    cases fuel2 <;> rfl
  | succ fuel ih =>
    intro fuel2 i s hs hs2
    rcases s with _ | ⟨c, cs⟩
    · cases fuel2 <;> rfl
    · rcases fuel2 with _ | fuel2
      · simp at hs2
      · simp only [extScanF]
        rcases h : extMatchAt (c :: cs) with _ | ⟨k, sl, al⟩
        · dsimp only
          rw [ih fuel2 i cs
            (by simp only [List.length_cons] at hs; omega)
            (by simp only [List.length_cons] at hs2; omega)]
        · have hpos := extMatchAt_pos h
          dsimp only
          rw [ih fuel2 i ((c :: cs).drop (k + sl + al))
            (by simp only [List.length_drop, List.length_cons] at *; omega)
            (by simp only [List.length_drop, List.length_cons] at *; omega)]
          rw [ih fuel2 (i + 1) ((c :: cs).drop (k + sl + al))
            (by simp only [List.length_drop, List.length_cons] at *; omega)
            (by simp only [List.length_drop, List.length_cons] at *; omega)]

/-- Substituting the recorded placeholder links back
(`replaced.replace(&key, &link)` in order). -/
def applyPlaceholders (ps : List (List Char × List Char)) (s : List Char) :
    List Char :=
  ps.foldl
    (fun acc kl => replAll (subMatcher kl.1) (subMatcher_pos kl.1) (fun _ => kl.2) acc) s

/-- The per-line substitution pipeline of `linkify_markdown`: external
references to placeholders, then same-statute articles, then paragraphs,
then items, then placeholders back. -/
def linkifyLine (linkDir title : List Char) (anchor : Option (List Char))
    (line : List Char) : List Char :=
  let e := extScan linkDir 0 line
  let s2 := replAll (artMatchLen '条') (artMatchLen_pos '条')
    (sameRepl linkDir title) e.1
  let s3 := replAll (artMatchLen '項') (artMatchLen_pos '項')
    (anchorRepl linkDir title anchor '項') s2
  let s4 := replAll (artMatchLen '号') (artMatchLen_pos '号')
    (anchorRepl linkDir title anchor '号') s3
  applyPlaceholders e.2 s4

/-- The anaphoric tokens scanned for after substitution. -/
def anaphorTokens : List (List Char) :=
  [['前', '条'], ['前', '項'], ['次', '条'], ['同', '条'], ['同', '項']]

/-- Rust `str::contains` for a literal pattern. -/
def containsSub (pat s : List Char) : Bool := decide (pat <:+: s)

/-- The anaphoric tokens contained in a rewritten line, in scan order. -/
def lineUnresolved (replaced : List Char) : List (List Char) :=
  anaphorTokens.filter fun t => containsSub t replaced

/-- `extract_heading_anchor`: strip leading `#`, trim, and when the line
starts with `第` and contains `条`, keep up to and including the first `条`. -/
def extract_heading_anchor (line : List Char) : Option (List Char) :=
  match rustTrim (line.dropWhile (· = '#')) with
  | '第' :: s =>
    if '条' ∈ '第' :: s then
      some (('第' :: s).take ((('第' :: s).takeWhile (· ≠ '条')).length + 1))
    else none
  | _ => none

/-- Does the line contain `[[` (the already-linked test)? -/
def containsLinkOpen (s : List Char) : Bool := containsSub ['[', '['] s

/-- Anchor update: heading lines (and rewritten lines) set the running
anchor only when one can be extracted. -/
def anchorUpdate (anchor : Option (List Char)) (line : List Char) :
    Option (List Char) :=
  match extract_heading_anchor line with
  | some a => some a
  | none => anchor

/-- The line loop of `linkify_markdown`: heading lines and already-linked
lines are kept verbatim; other lines go through the substitution pipeline;
the running article anchor threads through; anaphoric leftovers are
collected per rewritten line. -/
def linkifyLoop (linkDir title : List Char) (anchor : Option (List Char)) :
    List (List Char) → List (List Char) × List (List Char)
  | [] => ([], [])
  | line :: rest =>
    if line.head? = some '#' ∨ containsLinkOpen line = true then
      let r := linkifyLoop linkDir title (anchorUpdate anchor line) rest
      (line :: r.1, r.2)
    else
      let replaced := linkifyLine linkDir title anchor line
      let r := linkifyLoop linkDir title (anchorUpdate anchor replaced) rest
      (replaced :: r.1, lineUnresolved replaced ++ r.2)

/-- Strip one trailing carriage return (part of Rust `str::lines`). -/
def stripOneCR (seg : List Char) : List Char :=
  if seg.getLast? = some '\r' then seg.dropLast else seg

/-- Rust `str::lines`: split at `\n`, dropping the terminator and one
preceding `\r`; a final segment without terminator is kept as-is. -/
def rustLinesF : Nat → List Char → List (List Char)
  | _, [] => []
  | 0, _ :: _ => []
  | fuel + 1, c :: cs =>
    let seg := (c :: cs).takeWhile (· ≠ '\n')
    if seg.length = (c :: cs).length then [seg]
    else stripOneCR seg :: rustLinesF fuel ((c :: cs).drop (seg.length + 1))

/-- Rust `str::lines` (fuel = input length suffices: each step consumes at
least one character). -/
def rustLines (s : List Char) : List (List Char) :=
  rustLinesF s.length s

theorem rustLinesF_fuel :
    ∀ fuel fuel2 s, s.length ≤ fuel → s.length ≤ fuel2 →
      rustLinesF fuel s = rustLinesF fuel2 s := by
  intro fuel
  induction fuel with
  | zero =>
    intro fuel2 s hs _
    rw [List.length_eq_zero.mp (Nat.le_zero.mp hs)]
    cases fuel2 <;> rfl
  | succ fuel ih =>
    intro fuel2 s hs hs2
    rcases s with _ | ⟨c, cs⟩
    · cases fuel2 <;> rfl
    · rcases fuel2 with _ | fuel2
      · simp at hs2
      · simp only [rustLinesF]
        split_ifs
        · rfl
        · rw [ih fuel2 ((c :: cs).drop
            (((c :: cs).takeWhile (· ≠ '\n')).length + 1))
            (by simp only [List.length_drop, List.length_cons] at *; omega)
            (by simp only [List.length_drop, List.length_cons] at *; omega)]

/-- Join lines, terminating each with `\n` (the output building of
`linkify_markdown`, which pushes `\n` after every line). -/
def joinLinesNl (ls : List (List Char)) : List Char :=
  ls.foldr (fun l acc => l ++ '\n' :: acc) []

/-- Repeatedly strip a leading `./` (`trim_start_matches("./")` under a
`while starts_with("./")` loop). -/
def stripDotSlash : List Char → List Char
  | '.' :: '/' :: rest => stripDotSlash rest
  | s => s

/-- `obsidian_dir`: backslashes to slashes, `.` to empty, leading `./`
stripped, surrounding `/` trimmed. -/
def obsidian_dir (output_dir : List Char) : List Char :=
  let s := output_dir.map fun c => if c = '\\' then '/' else c
  let s := if s = ['.'] then [] else s
  trimMatches (· = '/') (stripDotSlash s)

/-- `linkify_markdown`: rewrite the body line by line and collect
unresolved anaphoric tokens. -/
def linkify_markdown (markdown current_law_title output_dir : List Char) :
    List Char × List (List Char) :=
  let r := linkifyLoop (obsidian_dir output_dir) current_law_title none
    (rustLines markdown)
  (joinLinesNl r.1, r.2)

theorem artMatch_take {last : Char} {t : List Char} {n : Nat}
    (h : artMatchLen last t = some n) :
    ∃ ns, ns ≠ [] ∧ ns.all numeralChar = true ∧
      t.take n = '第' :: ns ++ [last] ∧ n = ns.length + 2 := by
  unfold artMatchLen at h
  split at h
  case h_2 => cases h
  case h_1 a cs =>
    dsimp only at h
    split_ifs at h with h0 h1
    cases h
    refine ⟨cs.takeWhile numeralChar, ?_, ?_, ?_, by omega⟩
    · intro hnil
      rw [hnil] at h0
      simp at h0
    · exact List.all_eq_true.mpr fun c hc => List.mem_takeWhile_imp hc
    · obtain ⟨rest, hrest⟩ := List.takeWhile_prefix (l := cs) (p := numeralChar)
      set ns := cs.takeWhile numeralChar with hns
      have hdrop : cs.drop ns.length = rest := by
        have h2 := congrArg (List.drop ns.length) hrest
        rw [List.drop_left] at h2
        exact h2.symm
      rw [hdrop] at h1
      rcases rest with _ | ⟨e, es⟩
      · cases h1
      · have he : e = last := by
          simp only [List.head?_cons, Option.some.injEq] at h1
          exact h1
        subst he
        have hn : 1 + ns.length + 1 = ns.length + 1 + 1 := by omega
        rw [hn, List.take_succ_cons, ← hrest, List.take_append_eq_append_take]
        rw [List.take_of_length_le (by omega)]
        simp

theorem replAll_nil (M : List Char → Option Nat)
    (hM : ∀ s n, M s = some n → 1 ≤ n) (f : List Char → List Char) :
    replAll M hM f [] = [] := rfl

theorem replAll_cons_some {M : List Char → Option Nat}
    {hM : ∀ s n, M s = some n → 1 ≤ n} {f : List Char → List Char}
    {c : Char} {cs : List Char} {n : Nat} (hc : M (c :: cs) = some n) :
    replAll M hM f (c :: cs) =
      f ((c :: cs).take n) ++ replAll M hM f ((c :: cs).drop n) := by
  have hpos := hM _ _ hc
  unfold replAll
  simp only [List.length_cons, replAllF]
  rw [hc]
  simp only [List.append_cancel_left_eq]
  exact replAllF_fuel M f hM cs.length _ _
    (by simp only [List.length_drop, List.length_cons]; omega) le_rfl

theorem replAll_cons_none {M : List Char → Option Nat}
    {hM : ∀ s n, M s = some n → 1 ≤ n} {f : List Char → List Char}
    {c : Char} {cs : List Char} (hc : M (c :: cs) = none) :
    replAll M hM f (c :: cs) = c :: replAll M hM f cs := by
  unfold replAll
  simp only [List.length_cons, replAllF]
  rw [hc]

theorem replAll_eq_self_of (M : List Char → Option Nat)
    (hM : ∀ s n, M s = some n → 1 ≤ n) (f : List Char → List Char)
    (hf : ∀ t n, M t = some n → f (t.take n) = t.take n) :
    ∀ s, replAll M hM f s = s := by
  suffices H : ∀ fuel s, s.length ≤ fuel → replAll M hM f s = s from
    fun s => H s.length s le_rfl
  intro fuel
  induction fuel with
  | zero =>
    intro s hs
    rw [List.length_eq_zero.mp (Nat.le_zero.mp hs)]
    exact replAll_nil M hM f
  | succ fuel ih =>
    intro s hs
    rcases s with _ | ⟨c, cs⟩
    · exact replAll_nil M hM f
    · rcases h : M (c :: cs) with _ | n
      · rw [replAll_cons_none h,
          ih cs (by simp only [List.length_cons] at hs; omega)]
      · have hpos := hM _ _ h
        rw [replAll_cons_some h, hf _ _ h, ih ((c :: cs).drop n)
          (by simp only [List.length_drop, List.length_cons] at *; omega)]
        exact List.take_append_drop n (c :: cs)

theorem replAll_eq_or_emits (M : List Char → Option Nat)
    (hM : ∀ s n, M s = some n → 1 ≤ n) (f : List Char → List Char) :
    ∀ s, replAll M hM f s = s ∨
      ∃ u t n v, M t = some n ∧ replAll M hM f s = u ++ f (t.take n) ++ v := by
  suffices H : ∀ fuel s, s.length ≤ fuel → (replAll M hM f s = s ∨
      ∃ u t n v, M t = some n ∧ replAll M hM f s = u ++ f (t.take n) ++ v) from
    fun s => H s.length s le_rfl
  intro fuel
  induction fuel with
  | zero =>
    intro s hs
    rw [List.length_eq_zero.mp (Nat.le_zero.mp hs)]
    exact Or.inl (replAll_nil M hM f)
  | succ fuel ih =>
    intro s hs
    rcases s with _ | ⟨c, cs⟩
    · exact Or.inl (replAll_nil M hM f)
    · rcases h : M (c :: cs) with _ | n
      · rcases ih cs (by simp only [List.length_cons] at hs; omega) with h2 | h2
        · exact Or.inl (by rw [replAll_cons_none h, h2])
        · obtain ⟨u, t, n, v, hmn, heq⟩ := h2
          exact Or.inr ⟨c :: u, t, n, v, hmn,
            by rw [replAll_cons_none h, heq]; rfl⟩
      · exact Or.inr ⟨[], c :: cs, n, replAll M hM f ((c :: cs).drop n), h,
          replAll_cons_some h⟩

theorem replAll_append_of_not_first (M : List Char → Option Nat)
    (hM : ∀ s n, M s = some n → 1 ≤ n) (f : List Char → List Char)
    (F : Char → Prop)
    (hF : ∀ t n, M t = some n → ∃ c cs, t = c :: cs ∧ F c)
    {p : List Char} (hpF : ∀ c ∈ p, ¬ F c) (v : List Char) :
    replAll M hM f (p ++ v) = p ++ replAll M hM f v := by
  induction p with
  | nil => simp
  | cons c cs ih =>
    have hM0 : M (c :: (cs ++ v)) = none := by
      rcases h : M (c :: (cs ++ v)) with _ | n
      · rfl
      · obtain ⟨c', cs', heq, hFc⟩ := hF _ _ h
        have hc : c' = c := by injection heq with h1 h2; exact h1.symm
        exact absurd (hc ▸ hFc) (hpF c (List.mem_cons_self ..))
    rw [List.cons_append, replAll_cons_none hM0,
      ih fun x hx => hpF x (List.mem_cons_of_mem _ hx)]
    rfl

theorem replAll_preserves_occ (M : List Char → Option Nat)
    (hM : ∀ s n, M s = some n → 1 ≤ n) (f : List Char → List Char)
    (S F : Char → Prop)
    (hS : ∀ t n, M t = some n → ∀ c ∈ t.take n, S c)
    (hF : ∀ t n, M t = some n → ∃ c cs, t = c :: cs ∧ F c)
    {p : List Char} (hp : p ≠ []) (hpF : ∀ c ∈ p, ¬ F c)
    (hpS : ∀ c, p.head? = some c → ¬ S c) :
    ∀ u v, ∃ u' v',
      replAll M hM f (u ++ (p ++ v)) = u' ++ (p ++ v') := by
  suffices H : ∀ fuel u, u.length ≤ fuel → ∀ v, ∃ u' v',
      replAll M hM f (u ++ (p ++ v)) = u' ++ (p ++ v') from
    fun u v => H u.length u le_rfl v
  intro fuel
  induction fuel with
  | zero =>
    intro u hu v
    rw [List.length_eq_zero.mp (Nat.le_zero.mp hu)]
    refine ⟨[], replAll M hM f v, ?_⟩
    rw [List.nil_append, List.nil_append,
      replAll_append_of_not_first M hM f F hF hpF v]
  | succ fuel ih =>
    intro u hu v
    rcases u with _ | ⟨c, u'⟩
    · refine ⟨[], replAll M hM f v, ?_⟩
      rw [List.nil_append, List.nil_append,
        replAll_append_of_not_first M hM f F hF hpF v]
    · rw [List.cons_append]
      rcases h : M (c :: (u' ++ (p ++ v))) with _ | n
      · obtain ⟨u'', v'', heq⟩ :=
          ih u' (by simp only [List.length_cons] at hu; omega) v
        exact ⟨c :: u'', v'', by rw [replAll_cons_none h, heq]; rfl⟩
      · have hpos := hM _ _ h
        by_cases hn : n ≤ u'.length + 1
        · have hdrop : (c :: (u' ++ (p ++ v))).drop n =
              ((c :: u').drop n) ++ (p ++ v) := by
            rw [show c :: (u' ++ (p ++ v)) = (c :: u') ++ (p ++ v) from rfl]
            rw [List.drop_append_eq_append_drop]
            rw [show n - (c :: u').length = 0 by
              simp only [List.length_cons]; omega]
            rw [List.drop_zero]
          obtain ⟨u'', v'', heq⟩ := ih ((c :: u').drop n)
            (by simp only [List.length_drop, List.length_cons] at *; omega) v
          refine ⟨f ((c :: (u' ++ (p ++ v))).take n) ++ u'', v'', ?_⟩
          rw [replAll_cons_some h, hdrop, heq, List.append_assoc]
        · exfalso
          rcases hpl : p with _ | ⟨ph, pt⟩
          · exact hp hpl
          · have hmem : ph ∈ (c :: (u' ++ (p ++ v))).take n := by
              rw [show c :: (u' ++ (p ++ v)) = (c :: u') ++ (p ++ v) from rfl]
              rw [List.take_append_eq_append_take]
              refine List.mem_append_right _ ?_
              rw [hpl]
              rw [show (ph :: pt) ++ v = ph :: (pt ++ v) from rfl]
              rcases hk : n - (c :: u').length with _ | k
              · simp only [List.length_cons] at hk
                omega
              · rw [List.take_succ_cons]
                exact List.mem_cons_self ..
            have hSph := hS _ _ h ph hmem
            exact hpS ph (by rw [hpl]; rfl) hSph

theorem extScan_nil (linkDir : List Char) (i : Nat) :
    extScan linkDir i [] = ([], []) := rfl

theorem extScan_cons_none {linkDir : List Char} {i : Nat} {c : Char}
    {cs : List Char} (h : extMatchAt (c :: cs) = none) :
    extScan linkDir i (c :: cs) =
      (c :: (extScan linkDir i cs).1, (extScan linkDir i cs).2) := by
  unfold extScan
  simp only [List.length_cons, extScanF]
  rw [h]

theorem extScan_cons_keep {linkDir : List Char} {i : Nat} {c : Char}
    {cs : List Char} {k sl al : Nat}
    (h : extMatchAt (c :: cs) = some (k, sl, al))
    (hlaw : (normalize_law_ref_title ((c :: cs).take (k + sl))).getD [] = []) :
    extScan linkDir i (c :: cs) =
      ((c :: cs).take (k + sl + al) ++
        (extScan linkDir i ((c :: cs).drop (k + sl + al))).1,
       (extScan linkDir i ((c :: cs).drop (k + sl + al))).2) := by
  have hpos := extMatchAt_pos h
  unfold extScan
  simp only [List.length_cons, extScanF]
  rw [h]
  dsimp only
  rw [if_pos hlaw]
  rw [extScanF_fuel linkDir cs.length ((c :: cs).drop (k + sl + al)).length i
    ((c :: cs).drop (k + sl + al))
    (by simp only [List.length_drop, List.length_cons]; omega) le_rfl]

theorem extScan_cons_link {linkDir : List Char} {i : Nat} {c : Char}
    {cs : List Char} {k sl al : Nat}
    (h : extMatchAt (c :: cs) = some (k, sl, al))
    (hlaw : (normalize_law_ref_title ((c :: cs).take (k + sl))).getD [] ≠ []) :
    extScan linkDir i (c :: cs) =
      (phKey i ++ (extScan linkDir (i + 1) ((c :: cs).drop (k + sl + al))).1,
       (phKey i,
        extLinkText linkDir
          ((normalize_law_ref_title ((c :: cs).take (k + sl))).getD [])
          ((((c :: cs).drop (k + sl)).drop 1).take (al - 2))) ::
        (extScan linkDir (i + 1) ((c :: cs).drop (k + sl + al))).2) := by
  have hpos := extMatchAt_pos h
  unfold extScan
  simp only [List.length_cons, extScanF]
  rw [h]
  dsimp only
  rw [if_neg hlaw]
  rw [extScanF_fuel linkDir cs.length ((c :: cs).drop (k + sl + al)).length
    (i + 1) ((c :: cs).drop (k + sl + al))
    (by simp only [List.length_drop, List.length_cons]; omega) le_rfl]

theorem extScan_ps_nil (linkDir : List Char) :
    ∀ s i, (extScan linkDir i s).2 = [] → (extScan linkDir i s).1 = s := by
  suffices H : ∀ fuel s, s.length ≤ fuel → ∀ i,
      (extScan linkDir i s).2 = [] → (extScan linkDir i s).1 = s from
    fun s i => H s.length s le_rfl i
  intro fuel
  induction fuel with
  | zero =>
    intro s hs i _
    rw [List.length_eq_zero.mp (Nat.le_zero.mp hs), extScan_nil]
  | succ fuel ih =>
    intro s hs i hps
    rcases s with _ | ⟨c, cs⟩
    · rw [extScan_nil]
    · rcases h : extMatchAt (c :: cs) with _ | ⟨k, sl, al⟩
      · rw [extScan_cons_none h] at hps ⊢
        rw [ih cs (by simp only [List.length_cons] at hs; omega) i hps]
      · have hpos := extMatchAt_pos h
        by_cases hlaw :
            (normalize_law_ref_title ((c :: cs).take (k + sl))).getD [] = []
        · rw [extScan_cons_keep h hlaw] at hps ⊢
          rw [ih ((c :: cs).drop (k + sl + al))
            (by simp only [List.length_drop, List.length_cons] at *; omega) i hps]
          exact List.take_append_drop ..
        · rw [extScan_cons_link h hlaw] at hps
          cases hps

theorem extScan_head_occ (linkDir : List Char) :
    ∀ s i key link rest,
      (extScan linkDir i s).2 = (key, link) :: rest →
      ∃ u v, (extScan linkDir i s).1 = u ++ (key ++ v) := by
  suffices H : ∀ fuel s, s.length ≤ fuel → ∀ i key link rest,
      (extScan linkDir i s).2 = (key, link) :: rest →
      ∃ u v, (extScan linkDir i s).1 = u ++ (key ++ v) from
    fun s i key link rest => H s.length s le_rfl i key link rest
  intro fuel
  induction fuel with
  | zero =>
    intro s hs i key link rest hps
    rw [List.length_eq_zero.mp (Nat.le_zero.mp hs), extScan_nil] at hps
    cases hps
  | succ fuel ih =>
    intro s hs i key link rest hps
    rcases s with _ | ⟨c, cs⟩
    · rw [extScan_nil] at hps
      cases hps
    · rcases h : extMatchAt (c :: cs) with _ | ⟨k, sl, al⟩
      · rw [extScan_cons_none h] at hps ⊢
        obtain ⟨u, v, huv⟩ :=
          ih cs (by simp only [List.length_cons] at hs; omega) i key link rest hps
        exact ⟨c :: u, v, by rw [huv]; rfl⟩
      · have hpos := extMatchAt_pos h
        by_cases hlaw :
            (normalize_law_ref_title ((c :: cs).take (k + sl))).getD [] = []
        · rw [extScan_cons_keep h hlaw] at hps ⊢
          obtain ⟨u, v, huv⟩ := ih ((c :: cs).drop (k + sl + al))
            (by simp only [List.length_drop, List.length_cons] at *; omega)
            i key link rest hps
          exact ⟨(c :: cs).take (k + sl + al) ++ u, v,
            by rw [huv, List.append_assoc]⟩
        · rw [extScan_cons_link h hlaw] at hps ⊢
          have hkey : key = phKey i := by
            injection hps with h1 h2
            injection h1 with h3 h4
            exact h3.symm
          exact ⟨[], (extScan linkDir (i + 1)
            ((c :: cs).drop (k + sl + al))).1, by rw [hkey]; rfl⟩

theorem extScan_ps_shape (linkDir : List Char) :
    ∀ s i kl, kl ∈ (extScan linkDir i s).2 →
      (∃ j, kl.1 = phKey j) ∧
      ∃ law ns, law ≠ [] ∧ (∃ t, normalize_law_ref_title t = some law) ∧
        kl.2 = extLinkText linkDir law ns := by
  suffices H : ∀ fuel s, s.length ≤ fuel → ∀ i kl,
      kl ∈ (extScan linkDir i s).2 →
      (∃ j, kl.1 = phKey j) ∧
      ∃ law ns, law ≠ [] ∧ (∃ t, normalize_law_ref_title t = some law) ∧
        kl.2 = extLinkText linkDir law ns from
    fun s i kl => H s.length s le_rfl i kl
  intro fuel
  induction fuel with
  | zero =>
    intro s hs i kl hmem
    rw [List.length_eq_zero.mp (Nat.le_zero.mp hs), extScan_nil] at hmem
    cases hmem
  | succ fuel ih =>
    intro s hs i kl hmem
    rcases s with _ | ⟨c, cs⟩
    · rw [extScan_nil] at hmem
      cases hmem
    · rcases h : extMatchAt (c :: cs) with _ | ⟨k, sl, al⟩
      · rw [extScan_cons_none h] at hmem
        exact ih cs (by simp only [List.length_cons] at hs; omega) i kl hmem
      · have hpos := extMatchAt_pos h
        by_cases hlaw :
            (normalize_law_ref_title ((c :: cs).take (k + sl))).getD [] = []
        · rw [extScan_cons_keep h hlaw] at hmem
          exact ih ((c :: cs).drop (k + sl + al))
            (by simp only [List.length_drop, List.length_cons] at *; omega) i kl hmem
        · rw [extScan_cons_link h hlaw] at hmem
          rcases List.mem_cons.mp hmem with rfl | hmem'
          · refine ⟨⟨i, rfl⟩, (normalize_law_ref_title
              ((c :: cs).take (k + sl))).getD [],
              (((c :: cs).drop (k + sl)).drop 1).take (al - 2), hlaw, ?_, rfl⟩
            rcases hn : normalize_law_ref_title ((c :: cs).take (k + sl)) with
              _ | law
            · rw [hn] at hlaw
              exact absurd rfl hlaw
            · exact ⟨_, hn⟩
          · exact ih ((c :: cs).drop (k + sl + al))
              (by simp only [List.length_drop, List.length_cons] at *; omega)
              (i + 1) kl hmem'

theorem digitChar_mem (d : Nat) :
    digitChar d ∈ ['0', '1', '2', '3', '4', '5', '6', '7', '8', '9'] := by
  unfold digitChar
  by_cases h : d < 10
  · interval_cases d <;> simp
  · rw [List.getD_eq_default _ _ (by simp; omega)]
    simp

theorem digitChar_range (d : Nat) :
    48 ≤ (digitChar d).toNat ∧ (digitChar d).toNat ≤ 57 := by
  have h := digitChar_mem d
  simp only [List.mem_cons, List.not_mem_nil, or_false] at h
  rcases h with h|h|h|h|h|h|h|h|h|h <;> rw [h] <;> decide

theorem natDigitsAux_range :
    ∀ fuel n acc, (∀ c ∈ acc, 48 ≤ c.toNat ∧ c.toNat ≤ 57) →
      ∀ c ∈ natDigitsAux fuel n acc, 48 ≤ c.toNat ∧ c.toNat ≤ 57 := by
  intro fuel
  induction fuel with
  | zero => intro n acc hacc c hc; exact hacc c hc
  | succ fuel ih =>
    intro n acc hacc c hc
    rw [natDigitsAux] at hc
    split_ifs at hc
    · rcases List.mem_cons.mp hc with rfl | hc'
      · exact digitChar_range n
      · exact hacc c hc'
    · refine ih (n / 10) (digitChar (n % 10) :: acc) ?_ c hc
      intro x hx
      rcases List.mem_cons.mp hx with rfl | hx'
      · exact digitChar_range (n % 10)
      · exact hacc x hx'

theorem natDigits_range (n : Nat) :
    ∀ c ∈ natDigits n, 48 ≤ c.toNat ∧ c.toNat ≤ 57 :=
  natDigitsAux_range (n + 1) n [] (by simp)

theorem phKey_chars (i : Nat) :
    ∀ c ∈ phKey i, (48 ≤ c.toNat ∧ c.toNat ≤ 57) ∨
      c ∈ ['_', 'E', 'X', 'T', 'L', 'I', 'N', 'K'] := by
  simp only [phKey, List.forall_mem_cons, List.forall_mem_append,
    List.forall_mem_singleton]
  repeat' apply And.intro
  all_goals
    first
      | exact fun c hc => Or.inl (natDigits_range i c hc)
      | decide
      | simp

theorem phKey_ne_nil (i : Nat) : phKey i ≠ [] := by
  unfold phKey
  simp

theorem phKey_head (i : Nat) : (phKey i).head? = some '_' := rfl

/-- The character set of an article / paragraph / item match. -/
def SArt (last : Char) (c : Char) : Prop :=
  numeralChar c = true ∨ c = '第' ∨ c = last

theorem artMatch_chars {last : Char} {t : List Char} {n : Nat}
    (h : artMatchLen last t = some n) : ∀ c ∈ t.take n, SArt last c := by
  obtain ⟨ns, -, hall, htake, -⟩ := artMatch_take h
  rw [htake]
  intro c hc
  rcases List.mem_cons.mp hc with rfl | hc'
  · exact Or.inr (Or.inl rfl)
  · rcases List.mem_append.mp hc' with hn | hl
    · exact Or.inl (List.all_eq_true.mp hall c hn)
    · rcases List.mem_singleton.mp hl with rfl
      exact Or.inr (Or.inr rfl)

theorem artMatch_first {last : Char} {t : List Char} {n : Nat}
    (h : artMatchLen last t = some n) : ∃ c cs, t = c :: cs ∧ c = '第' := by
  unfold artMatchLen at h
  split at h
  case h_2 => cases h
  case h_1 a cs => exact ⟨'第', cs, rfl, rfl⟩

theorem subMatch_spec {key t : List Char} {n : Nat}
    (h : subMatcher key t = some n) :
    n = key.length ∧ t.take n = key ∧ key ≠ [] := by
  unfold subMatcher at h
  split_ifs at h with hk
  cases h
  refine ⟨rfl, ?_, hk.1⟩
  have hpre := List.isPrefixOf_iff_prefix.mp hk.2
  exact (List.prefix_iff_eq_take.mp hpre).symm

theorem subMatch_chars {key t : List Char} {n : Nat}
    (h : subMatcher key t = some n) : ∀ c ∈ t.take n, c ∈ key := by
  obtain ⟨-, htake, -⟩ := subMatch_spec h
  rw [htake]
  exact fun c hc => hc

theorem subMatch_first {key t : List Char} {n : Nat}
    (h : subMatcher key t = some n) :
    ∃ c cs, t = c :: cs ∧ key.head? = some c := by
  obtain ⟨hn, htake, hne⟩ := subMatch_spec h
  rcases key with _ | ⟨kh, kt⟩
  · exact absurd rfl hne
  · rcases t with _ | ⟨th, tt⟩
    · rw [hn] at htake
      simp at htake
    · refine ⟨th, tt, rfl, ?_⟩
      rw [hn, List.length_cons, List.take_succ_cons] at htake
      injection htake with h1 h2
      rw [h1]
      rfl

theorem containsLinkOpen_iff {s : List Char} :
    containsLinkOpen s = true ↔ ∃ u v, s = u ++ (['[', '['] ++ v) := by
  unfold containsLinkOpen containsSub
  rw [decide_eq_true_eq]
  constructor
  · rintro ⟨u, v, huv⟩
    exact ⟨u, v, by rw [← huv, List.append_assoc]⟩
  · rintro ⟨u, v, huv⟩
    exact ⟨u, v, by rw [huv, List.append_assoc]⟩

theorem anchorRepl_none_id (dir title : List Char) (last : Char) :
    ∀ t n, artMatchLen last t = some n →
      anchorRepl dir title none last (t.take n) = t.take n := by
  intro t n h
  obtain ⟨ns, -, -, htake, -⟩ := artMatch_take h
  rw [htake]
  unfold anchorRepl artNum
  simp

theorem phKey_char_le (j : Nat) {c : Char} (hc : c ∈ phKey j) :
    c.toNat ≤ 95 := by
  rcases phKey_chars j c hc with ⟨-, h2⟩ | hm
  · omega
  · fin_cases hm <;> decide

theorem phKey_not_dai (j : Nat) : ∀ c ∈ phKey j, ¬ c = '第' := by
  intro c hc heq
  subst heq
  have := phKey_char_le j hc
  revert this
  decide

theorem phKey_no_bracket (j : Nat) : '[' ∉ phKey j := by
  intro hc
  rcases phKey_chars j '[' hc with ⟨h1, h2⟩ | hm
  · revert h1 h2; decide
  · revert hm; decide

theorem replAll_sub_emits (key link : List Char) (hk : key ≠ []) :
    ∀ s u v, s = u ++ (key ++ v) →
      ∃ u' v', replAll (subMatcher key) (subMatcher_pos key) (fun _ => link) s =
        u' ++ (link ++ v') := by
  suffices H : ∀ fuel s, s.length ≤ fuel → ∀ u v, s = u ++ (key ++ v) →
      ∃ u' v', replAll (subMatcher key) (subMatcher_pos key) (fun _ => link) s =
        u' ++ (link ++ v') from
    fun s u v h => H s.length s le_rfl u v h
  intro fuel
  induction fuel with
  | zero =>
    intro s hs u v heq
    exfalso
    rw [List.length_eq_zero.mp (Nat.le_zero.mp hs)] at heq
    rcases List.append_eq_nil.mp heq.symm with ⟨-, h2⟩
    exact hk (List.append_eq_nil.mp h2).1
  | succ fuel ih =>
    intro s hs u v heq
    rcases s with _ | ⟨c, cs⟩
    · exfalso
      rcases List.append_eq_nil.mp heq.symm with ⟨-, h2⟩
      exact hk (List.append_eq_nil.mp h2).1
    · rcases h : subMatcher key (c :: cs) with _ | n
      · rcases u with _ | ⟨u0, u'⟩
        · exfalso
          simp only [List.nil_append] at heq
          unfold subMatcher at h
          rw [if_pos] at h
          · cases h
          · refine ⟨hk, ?_⟩
            rw [List.isPrefixOf_iff_prefix]
            exact ⟨v, heq.symm⟩
        · rw [replAll_cons_none h]
          injection heq with h1 h2
          obtain ⟨u'', v'', huv⟩ :=
            ih cs (by simp only [List.length_cons] at hs; omega) u' v h2
          exact ⟨c :: u'', v'', by rw [huv]; rfl⟩
      · rw [replAll_cons_some h]
        exact ⟨[], replAll (subMatcher key) (subMatcher_pos key)
          (fun _ => link) ((c :: cs).drop n), rfl⟩

theorem applyPlaceholders_nil (s : List Char) : applyPlaceholders [] s = s := rfl

theorem applyPlaceholders_cons (kl : List Char × List Char)
    (ps : List (List Char × List Char)) (s : List Char) :
    applyPlaceholders (kl :: ps) s =
      applyPlaceholders ps
        (replAll (subMatcher kl.1) (subMatcher_pos kl.1) (fun _ => kl.2) s) := rfl

theorem applyPlaceholders_preserves (ps : List (List Char × List Char))
    (hks : ∀ kl ∈ ps, ∃ j, kl.1 = phKey j) :
    ∀ s u v, s = u ++ (['[', '['] ++ v) →
      ∃ u' v', applyPlaceholders ps s = u' ++ (['[', '['] ++ v') := by
  induction ps with
  | nil =>
    intro s u v h
    exact ⟨u, v, by rw [applyPlaceholders_nil, h]⟩
  | cons kl ps ih =>
    intro s u v h
    obtain ⟨j, hj⟩ := hks kl (List.mem_cons_self ..)
    have step := replAll_preserves_occ (subMatcher kl.1) (subMatcher_pos kl.1)
      (fun _ => kl.2) (· ∈ kl.1) (fun c => kl.1.head? = some c)
      (fun t n hm => subMatch_chars hm) (fun t n hm => subMatch_first hm)
      (p := ['[', '[']) (by simp)
      (by
        intro c hc heq
        rw [hj, phKey_head] at heq
        injection heq with heq2
        rcases List.mem_cons.mp hc with rfl | hc2
        · exact absurd heq2 (by decide)
        · rcases List.mem_singleton.mp hc2 with rfl
          exact absurd heq2 (by decide))
      (by
        intro c hc
        simp only [List.head?_cons, Option.some.injEq] at hc
        subst hc
        rw [hj]
        exact phKey_no_bracket j)
      u v
    obtain ⟨u', v', hstep⟩ := step
    rw [← h] at hstep
    rw [applyPlaceholders_cons]
    exact ih (fun kl2 hm => hks kl2 (List.mem_cons_of_mem _ hm)) _ u' v' hstep

theorem decomp_of_emit {s u r v : List Char}
    (h : s = u ++ ('[' :: '[' :: r) ++ v) :
    s = u ++ (['[', '['] ++ (r ++ v)) := by
  rw [h]
  simp

theorem art_occ_step (last : Char) (f : List Char → List Char)
    (hlast : ¬ SArt last '[') {s u v : List Char}
    (h : s = u ++ (['[', '['] ++ v)) :
    ∃ u' v', replAll (artMatchLen last) (artMatchLen_pos last) f s =
      u' ++ (['[', '['] ++ v') := by
  rw [h]
  exact replAll_preserves_occ (artMatchLen last) (artMatchLen_pos last) f
    (SArt last) (· = '第') (fun t n hm => artMatch_chars hm)
    (fun t n hm => artMatch_first hm) (p := ['[', '[']) (by simp)
    (by decide)
    (by
      intro c hc
      simp only [List.head?_cons, Option.some.injEq] at hc
      subst hc
      exact hlast)
    u v

theorem key_occ_step (last : Char) (f : List Char → List Char) {j : Nat}
    (hlast : ¬ SArt last '_') {s u v : List Char}
    (h : s = u ++ (phKey j ++ v)) :
    ∃ u' v', replAll (artMatchLen last) (artMatchLen_pos last) f s =
      u' ++ (phKey j ++ v') := by
  rw [h]
  exact replAll_preserves_occ (artMatchLen last) (artMatchLen_pos last) f
    (SArt last) (· = '第') (fun t n hm => artMatch_chars hm)
    (fun t n hm => artMatch_first hm) (p := phKey j) (phKey_ne_nil j)
    (phKey_not_dai j)
    (by
      intro c hc
      rw [phKey_head] at hc
      injection hc with hc2
      subst hc2
      exact hlast)
    u v

theorem linkifyLine_eq (linkDir title : List Char) (anchor : Option (List Char))
    (line : List Char) :
    linkifyLine linkDir title anchor line =
      applyPlaceholders (extScan linkDir 0 line).2
        (replAll (artMatchLen '号') (artMatchLen_pos '号')
          (anchorRepl linkDir title anchor '号')
          (replAll (artMatchLen '項') (artMatchLen_pos '項')
            (anchorRepl linkDir title anchor '項')
            (replAll (artMatchLen '条') (artMatchLen_pos '条')
              (sameRepl linkDir title) (extScan linkDir 0 line).1))) := rfl

theorem linkifyLine_id_or_link (linkDir title : List Char)
    (anchor : Option (List Char)) (line : List Char) :
    linkifyLine linkDir title anchor line = line ∨
      containsLinkOpen (linkifyLine linkDir title anchor line) = true := by
  rw [linkifyLine_eq]
  rcases hps : (extScan linkDir 0 line).2 with _ | ⟨⟨key, link⟩, rest⟩
  · have hs1 := extScan_ps_nil linkDir line 0 hps
    rw [hs1, applyPlaceholders_nil]
    rcases replAll_eq_or_emits (artMatchLen '条') (artMatchLen_pos '条')
        (sameRepl linkDir title) line with h2 | ⟨u, t, n, v, hmn, hemit⟩
    · rw [h2]
      rcases anchor with _ | a
      · rw [replAll_eq_self_of _ _ _ (anchorRepl_none_id linkDir title '項') line,
          replAll_eq_self_of _ _ _ (anchorRepl_none_id linkDir title '号') line]
        exact Or.inl rfl
      · rcases replAll_eq_or_emits (artMatchLen '項') (artMatchLen_pos '項')
            (anchorRepl linkDir title (some a) '項') line with
          h3 | ⟨u, t, n, v, hmn, hemit⟩
        · rw [h3]
          rcases replAll_eq_or_emits (artMatchLen '号') (artMatchLen_pos '号')
              (anchorRepl linkDir title (some a) '号') line with
            h4 | ⟨u, t, n, v, hmn, hemit⟩
          · rw [h4]
            exact Or.inl rfl
          · refine Or.inr (containsLinkOpen_iff.mpr ?_)
            exact ⟨u, _, decomp_of_emit hemit⟩
        · refine Or.inr (containsLinkOpen_iff.mpr ?_)
          obtain ⟨u3, v3, h4⟩ := art_occ_step '号'
            (anchorRepl linkDir title (some a) '号')
            (by unfold SArt; decide) (decomp_of_emit hemit)
          exact ⟨u3, v3, h4⟩
    · refine Or.inr (containsLinkOpen_iff.mpr ?_)
      obtain ⟨u3, v3, h3⟩ := art_occ_step '項'
        (anchorRepl linkDir title anchor '項') (by unfold SArt; decide)
        (decomp_of_emit hemit)
      obtain ⟨u4, v4, h4⟩ := art_occ_step '号'
        (anchorRepl linkDir title anchor '号') (by unfold SArt; decide) h3
      exact ⟨u4, v4, h4⟩
  · have hmem : (key, link) ∈ (extScan linkDir 0 line).2 := by
      rw [hps]
      exact List.mem_cons_self ..
    obtain ⟨⟨j, hj⟩, law, ns, hlawne, -, hlink⟩ :=
      extScan_ps_shape linkDir line 0 (key, link) hmem
    simp only at hj hlink
    obtain ⟨u1, v1, hocc1⟩ := extScan_head_occ linkDir line 0 key link rest hps
    rw [hj] at hocc1
    obtain ⟨u2, v2, hocc2⟩ :=
      key_occ_step '条' (sameRepl linkDir title)
        (by unfold SArt; decide) hocc1
    obtain ⟨u3, v3, hocc3⟩ :=
      key_occ_step '項' (anchorRepl linkDir title anchor '項')
        (by unfold SArt; decide) hocc2
    obtain ⟨u4, v4, hocc4⟩ :=
      key_occ_step '号' (anchorRepl linkDir title anchor '号')
        (by unfold SArt; decide) hocc3
    rw [applyPlaceholders_cons]
    rw [← hj] at hocc4
    obtain ⟨u5, v5, hocc5⟩ :=
      replAll_sub_emits key link (by rw [hj]; exact phKey_ne_nil j) _ u4 v4 hocc4
    refine Or.inr (containsLinkOpen_iff.mpr ?_)
    have hrest : ∀ kl ∈ rest, ∃ j2, kl.1 = phKey j2 := by
      intro kl hm
      have h2 : kl ∈ (extScan linkDir 0 line).2 := by
        rw [hps]
        exact List.mem_cons_of_mem _ hm
      exact (extScan_ps_shape linkDir line 0 kl h2).1
    have hs5 : replAll (subMatcher key) (subMatcher_pos key) (fun _ => link)
        (replAll (artMatchLen '号') (artMatchLen_pos '号')
          (anchorRepl linkDir title anchor '号')
          (replAll (artMatchLen '項') (artMatchLen_pos '項')
            (anchorRepl linkDir title anchor '項')
            (replAll (artMatchLen '条') (artMatchLen_pos '条')
              (sameRepl linkDir title) (extScan linkDir 0 line).1))) =
        u5 ++ (['[', '['] ++ ((obsidian_note_target linkDir law ++ ['#', '第'] ++
          ns ++ ['条', '|'] ++ law ++ ['第'] ++ ns ++ ['条', ']', ']']) ++ v5)) := by
      rw [hocc5, hlink]
      unfold extLinkText
      simp
    obtain ⟨u6, v6, hocc6⟩ := applyPlaceholders_preserves rest hrest _ _ _ hs5
    exact ⟨u6, v6, hocc6⟩

theorem linkifyLoop_nil (linkDir title : List Char)
    (anchor : Option (List Char)) :
    linkifyLoop linkDir title anchor [] = ([], []) := rfl

theorem linkifyLoop_cons_keep {linkDir title : List Char}
    {anchor : Option (List Char)} {line : List Char} {rest : List (List Char)}
    (hc : line.head? = some '#' ∨ containsLinkOpen line = true) :
    linkifyLoop linkDir title anchor (line :: rest) =
      (line :: (linkifyLoop linkDir title (anchorUpdate anchor line) rest).1,
       (linkifyLoop linkDir title (anchorUpdate anchor line) rest).2) := by
  rw [linkifyLoop]
  rw [if_pos hc]

theorem linkifyLoop_cons_proc {linkDir title : List Char}
    {anchor : Option (List Char)} {line : List Char} {rest : List (List Char)}
    (hc : ¬ (line.head? = some '#' ∨ containsLinkOpen line = true)) :
    linkifyLoop linkDir title anchor (line :: rest) =
      (linkifyLine linkDir title anchor line ::
        (linkifyLoop linkDir title
          (anchorUpdate anchor (linkifyLine linkDir title anchor line)) rest).1,
       lineUnresolved (linkifyLine linkDir title anchor line) ++
        (linkifyLoop linkDir title
          (anchorUpdate anchor (linkifyLine linkDir title anchor line)) rest).2) := by
  rw [linkifyLoop]
  rw [if_neg hc]

theorem linkifyLoop_idem (linkDir title : List Char) :
    ∀ lines anchor,
      (linkifyLoop linkDir title anchor
        (linkifyLoop linkDir title anchor lines).1).1 =
      (linkifyLoop linkDir title anchor lines).1 := by
  intro lines
  induction lines with
  | nil => intro anchor; rfl
  | cons line rest ih =>
    intro anchor
    by_cases hc : line.head? = some '#' ∨ containsLinkOpen line = true
    · rw [linkifyLoop_cons_keep hc, linkifyLoop_cons_keep hc]
      simp only [List.cons.injEq, true_and]
      exact ih (anchorUpdate anchor line)
    · rw [linkifyLoop_cons_proc hc]
      rcases linkifyLine_id_or_link linkDir title anchor line with heq | hlink
      · rw [heq]
        rw [linkifyLoop_cons_proc hc, heq]
        simp only [List.cons.injEq, true_and]
        exact ih (anchorUpdate anchor line)
      · rw [linkifyLoop_cons_keep (Or.inr hlink)]
        simp only [List.cons.injEq, true_and]
        exact ih (anchorUpdate anchor (linkifyLine linkDir title anchor line))

theorem mem_of_mem_dropWhile {p : Char → Bool} {s : List Char} {c : Char}
    (h : c ∈ s.dropWhile p) : c ∈ s :=
  (List.dropWhile_suffix p).mem h

theorem mem_of_mem_trimMatches {p : Char → Bool} {s : List Char} {c : Char}
    (h : c ∈ trimMatches p s) : c ∈ s := by
  unfold trimMatches at h
  rw [List.mem_reverse] at h
  have h2 := mem_of_mem_dropWhile h
  rw [List.mem_reverse] at h2
  exact mem_of_mem_dropWhile h2

theorem mem_of_mem_rustTrim {s : List Char} {c : Char}
    (h : c ∈ rustTrim s) : c ∈ s := by
  unfold rustTrim at h
  rw [List.mem_reverse] at h
  have h2 := mem_of_mem_dropWhile h
  rw [List.mem_reverse] at h2
  exact mem_of_mem_dropWhile h2

theorem mem_of_mem_trimEndChar {x : Char} {s : List Char} {c : Char}
    (h : c ∈ trimEndChar x s) : c ∈ s := by
  unfold trimEndChar at h
  rw [List.mem_reverse] at h
  exact (List.mem_reverse).mp (mem_of_mem_dropWhile h)

theorem mem_of_mem_sanitize {t : List Char} {c : Char}
    (h : c ∈ sanitize_filename t) : c = '_' ∨ c ∈ t := by
  unfold sanitize_filename at h
  have h2 := mem_of_mem_rustTrim (mem_of_mem_trimEndChar h)
  obtain ⟨x, hx, hfx⟩ := List.mem_map.mp h2
  by_cases hf : forbiddenFileChar x = true
  · rw [if_pos hf] at hfx
    exact Or.inl hfx.symm
  · rw [if_neg hf] at hfx
    exact Or.inr (hfx ▸ hx)

theorem mem_of_normalize {s t : List Char} {c : Char}
    (h : normalize_law_ref_title s = some t) (hc : c ∈ t) : c ∈ s := by
  have hinf := normalize_infix_trimmed h
  exact mem_of_mem_trimMatches (hinf.mem hc)

theorem mem_of_extract_heading_anchor {line a : List Char} {c : Char}
    (h : extract_heading_anchor line = some a) (hc : c ∈ a) : c ∈ line := by
  unfold extract_heading_anchor at h
  split at h
  case h_2 => cases h
  case h_1 s heq =>
    split_ifs at h
    cases h
    have h2 : c ∈ rustTrim (line.dropWhile (· = '#')) := by
      rw [heq]
      exact (List.take_prefix ..).mem hc
    exact mem_of_mem_dropWhile (mem_of_mem_rustTrim h2)

theorem anchorUpdate_no_gamma {γ : Char} {anchor : Option (List Char)}
    {line : List Char} (ha : ∀ a, anchor = some a → γ ∉ a)
    (hl : γ ∉ line) :
    ∀ a, anchorUpdate anchor line = some a → γ ∉ a := by
  intro a hup hc
  unfold anchorUpdate at hup
  rcases he : extract_heading_anchor line with _ | a2
  · rw [he] at hup
    exact ha a hup hc
  · rw [he] at hup
    injection hup with hup2
    subst hup2
    exact hl (mem_of_extract_heading_anchor he hc)

theorem phKey_char_ge (j : Nat) : ∀ c ∈ phKey j, 48 ≤ c.toNat := by
  intro c hc
  rcases phKey_chars j c hc with ⟨h1, -⟩ | hm
  · exact h1
  · fin_cases hm <;> decide

theorem crlf_not_mem_phKey {γ : Char} (hγ : γ = '\n' ∨ γ = '\r') (j : Nat) :
    γ ∉ phKey j := by
  intro hc
  have := phKey_char_ge j γ hc
  rcases hγ with rfl | rfl <;> revert this <;> decide

theorem mem_target {dir law : List Char} {c : Char}
    (h : c ∈ obsidian_note_target dir law) :
    c ∈ dir ∨ c = '/' ∨ c ∈ sanitize_filename law := by
  unfold obsidian_note_target at h
  split_ifs at h
  · exact Or.inr (Or.inr h)
  · rcases List.mem_append.mp h with h2 | h2
    · exact Or.inl h2
    · rcases List.mem_cons.mp h2 with rfl | h3
      · exact Or.inr (Or.inl rfl)
      · exact Or.inr (Or.inr h3)

theorem mem_extLinkText {dir law ns : List Char} {c : Char}
    (h : c ∈ extLinkText dir law ns) :
    c ∈ obsidian_note_target dir law ∨ c ∈ law ∨ c ∈ ns ∨
      c ∈ ['[', ']', '#', '第', '条', '|'] := by
  unfold extLinkText at h
  simp only [List.append_assoc, List.mem_append] at h
  rcases h with h | h | h | h | h | h | h | h | h
  · fin_cases h <;> simp
  · exact Or.inl h
  · fin_cases h <;> simp
  · exact Or.inr (Or.inr (Or.inl h))
  · fin_cases h <;> simp
  · exact Or.inr (Or.inl h)
  · fin_cases h <;> simp
  · exact Or.inr (Or.inr (Or.inl h))
  · fin_cases h <;> simp

theorem mem_sameLinkText {dir title ns : List Char} {c : Char}
    (h : c ∈ sameLinkText dir title ns) :
    c ∈ obsidian_note_target dir title ∨ c ∈ ns ∨
      c ∈ ['[', ']', '#', '第', '条', '|'] := by
  unfold sameLinkText at h
  simp only [List.append_assoc, List.mem_append] at h
  rcases h with h | h | h | h | h | h | h
  · fin_cases h <;> simp
  · exact Or.inl h
  · fin_cases h <;> simp
  · exact Or.inr (Or.inl h)
  · fin_cases h <;> simp
  · exact Or.inr (Or.inl h)
  · fin_cases h <;> simp

theorem mem_anchorLinkText {dir title anchor ns : List Char} {last c : Char}
    (h : c ∈ anchorLinkText dir title anchor ns last) :
    c ∈ obsidian_note_target dir title ∨ c ∈ anchor ∨ c ∈ ns ∨ c = last ∨
      c ∈ ['[', ']', '#', '第', '|'] := by
  unfold anchorLinkText at h
  simp only [List.append_assoc, List.mem_append] at h
  rcases h with h | h | h | h | h | h | h
  · fin_cases h <;> simp
  · exact Or.inl h
  · fin_cases h <;> simp
  · exact Or.inr (Or.inl h)
  · fin_cases h <;> simp
  · exact Or.inr (Or.inr (Or.inl h))
  · rcases List.mem_cons.mp h with rfl | h2
    · exact Or.inr (Or.inr (Or.inr (Or.inl rfl)))
    · fin_cases h2 <;> simp

theorem replAll_no_gamma (M : List Char → Option Nat)
    (hM : ∀ s n, M s = some n → 1 ≤ n) (f : List Char → List Char) {γ : Char} :
    ∀ s, γ ∉ s → (∀ t n, t <:+ s → M t = some n → γ ∉ f (t.take n)) →
      γ ∉ replAll M hM f s := by
  suffices H : ∀ fuel s, s.length ≤ fuel → γ ∉ s →
      (∀ t n, t <:+ s → M t = some n → γ ∉ f (t.take n)) →
      γ ∉ replAll M hM f s from fun s => H s.length s le_rfl
  intro fuel
  induction fuel with
  | zero =>
    intro s hs hγs hf
    rw [List.length_eq_zero.mp (Nat.le_zero.mp hs), replAll_nil]
    simp
  | succ fuel ih =>
    intro s hs hγs hf
    rcases s with _ | ⟨c, cs⟩
    · rw [replAll_nil]
      simp
    · rcases h : M (c :: cs) with _ | n
      · rw [replAll_cons_none h]
        intro hmem
        rcases List.mem_cons.mp hmem with rfl | hmem2
        · exact hγs (List.mem_cons_self ..)
        · refine ih cs (by simp only [List.length_cons] at hs; omega)
            (fun hx => hγs (List.mem_cons_of_mem _ hx))
            (fun t n hsuf hm => hf t n (hsuf.trans (List.suffix_cons c cs)) hm)
            hmem2
      · rw [replAll_cons_some h]
        intro hmem
        rcases List.mem_append.mp hmem with hmem2 | hmem2
        · exact hf (c :: cs) n (List.suffix_refl _) h hmem2
        · have hpos := hM _ _ h
          refine ih ((c :: cs).drop n)
            (by simp only [List.length_drop, List.length_cons] at *; omega)
            (fun hx => hγs ((List.drop_suffix ..).mem hx))
            (fun t n2 hsuf hm => hf t n2 (hsuf.trans (List.drop_suffix ..)) hm)
            hmem2

theorem extScan_no_gamma (linkDir : List Char) {γ : Char}
    (hγ : γ = '\n' ∨ γ = '\r') (hdir : γ ∉ linkDir) :
    ∀ s i, γ ∉ s →
      γ ∉ (extScan linkDir i s).1 ∧
        ∀ kl ∈ (extScan linkDir i s).2, γ ∉ kl.2 := by
  suffices H : ∀ fuel s, s.length ≤ fuel → ∀ i, γ ∉ s →
      γ ∉ (extScan linkDir i s).1 ∧
        ∀ kl ∈ (extScan linkDir i s).2, γ ∉ kl.2 from
    fun s i => H s.length s le_rfl i
  intro fuel
  induction fuel with
  | zero =>
    intro s hs i hγs
    rw [List.length_eq_zero.mp (Nat.le_zero.mp hs), extScan_nil]
    exact ⟨by simp, by simp⟩
  | succ fuel ih =>
    intro s hs i hγs
    rcases s with _ | ⟨c, cs⟩
    · rw [extScan_nil]
      exact ⟨by simp, by simp⟩
    · rcases h : extMatchAt (c :: cs) with _ | ⟨k, sl, al⟩
      · rw [extScan_cons_none h]
        have hrec := ih cs (by simp only [List.length_cons] at hs; omega) i
          (fun hx => hγs (List.mem_cons_of_mem _ hx))
        refine ⟨?_, hrec.2⟩
        intro hmem
        rcases List.mem_cons.mp hmem with rfl | hmem2
        · exact hγs (List.mem_cons_self ..)
        · exact hrec.1 hmem2
      · have hpos := extMatchAt_pos h
        have hγdrop : γ ∉ (c :: cs).drop (k + sl + al) :=
          fun hx => hγs ((List.drop_suffix ..).mem hx)
        have hrec := ih ((c :: cs).drop (k + sl + al))
          (by simp only [List.length_drop, List.length_cons] at *; omega)
        by_cases hlaw :
            (normalize_law_ref_title ((c :: cs).take (k + sl))).getD [] = []
        · rw [extScan_cons_keep h hlaw]
          refine ⟨?_, (hrec i hγdrop).2⟩
          intro hmem
          rcases List.mem_append.mp hmem with hmem2 | hmem2
          · exact hγs ((List.take_prefix ..).mem hmem2)
          · exact (hrec i hγdrop).1 hmem2
        · rw [extScan_cons_link h hlaw]
          rcases hn : normalize_law_ref_title ((c :: cs).take (k + sl)) with
            _ | law
          · rw [hn] at hlaw
            exact absurd rfl hlaw
          · have hγlaw : γ ∉ law := fun hx =>
              hγs ((List.take_prefix ..).mem (mem_of_normalize hn hx))
            have hγns : γ ∉ (((c :: cs).drop (k + sl)).drop 1).take (al - 2) :=
              fun hx => hγs ((List.drop_suffix ..).mem
                ((List.drop_suffix ..).mem ((List.take_prefix ..).mem hx)))
            refine ⟨?_, ?_⟩
            · intro hmem
              rcases List.mem_append.mp hmem with hmem2 | hmem2
              · exact crlf_not_mem_phKey hγ i hmem2
              · exact (hrec (i + 1) hγdrop).1 hmem2
            · intro kl hkl
              rcases List.mem_cons.mp hkl with rfl | hkl2
              · intro hx
                rcases mem_extLinkText hx with h2 | h2 | h2 | h2
                · rcases mem_target h2 with h3 | h3 | h3
                  · exact hdir h3
                  · exact absurd h3 (by rcases hγ with rfl | rfl <;> decide)
                  · rcases mem_of_mem_sanitize h3 with h4 | h4
                    · exact absurd h4 (by rcases hγ with rfl | rfl <;> decide)
                    · exact hγlaw h4
                · exact hγlaw h2
                · exact hγns h2
                · rcases hγ with rfl | rfl <;> revert h2 <;> decide
              · exact (hrec (i + 1) hγdrop).2 kl hkl2

theorem mem_artNum {m : List Char} {c : Char} (h : c ∈ artNum m) : c ∈ m :=
  (List.drop_suffix ..).mem ((List.dropLast_prefix _).mem h)

theorem applyPlaceholders_no_gamma {γ : Char} :
    ∀ (ps : List (List Char × List Char)) (s : List Char), γ ∉ s →
      (∀ kl ∈ ps, γ ∉ kl.2) → γ ∉ applyPlaceholders ps s := by
  intro ps
  induction ps with
  | nil => intro s hγs _; rw [applyPlaceholders_nil]; exact hγs
  | cons kl ps ih =>
    intro s hγs hps
    rw [applyPlaceholders_cons]
    refine ih _ ?_ (fun kl2 hm => hps kl2 (List.mem_cons_of_mem _ hm))
    exact replAll_no_gamma (subMatcher kl.1) (subMatcher_pos kl.1)
      (fun _ => kl.2) s hγs
      (fun t n _ _ => hps kl (List.mem_cons_self ..))

theorem linkifyLine_no_gamma {γ : Char} (hγ : γ = '\n' ∨ γ = '\r')
    {linkDir title : List Char} {anchor : Option (List Char)}
    {line : List Char} (hdir : γ ∉ linkDir)
    (htitle : γ ∉ sanitize_filename title)
    (hanc : ∀ a, anchor = some a → γ ∉ a) (hline : γ ∉ line) :
    γ ∉ linkifyLine linkDir title anchor line := by
  have hγtarget : γ ∉ obsidian_note_target linkDir title := by
    intro hx
    rcases mem_target hx with h2 | h2 | h2
    · exact hdir h2
    · exact absurd h2 (by rcases hγ with rfl | rfl <;> decide)
    · exact htitle h2
  have hext := extScan_no_gamma linkDir hγ hdir line 0 hline
  have h2 : γ ∉ replAll (artMatchLen '条') (artMatchLen_pos '条')
      (sameRepl linkDir title) (extScan linkDir 0 line).1 := by
    refine replAll_no_gamma _ _ _ _ hext.1 ?_
    intro t n hsuf hm hx
    unfold sameRepl at hx
    rcases mem_sameLinkText hx with h3 | h3 | h3
    · exact hγtarget h3
    · exact hext.1 (hsuf.mem ((List.take_prefix ..).mem (mem_artNum h3)))
    · exact absurd h3 (by rcases hγ with rfl | rfl <;> decide)
  have hanchorStage : ∀ last : Char, last = '項' ∨ last = '号' →
      ∀ s2 : List Char, γ ∉ s2 →
      γ ∉ replAll (artMatchLen last) (artMatchLen_pos last)
        (anchorRepl linkDir title anchor last) s2 := by
    intro last hlast s2 hs2
    refine replAll_no_gamma _ _ _ _ hs2 ?_
    intro t n hsuf hm hx
    have hmemt : γ ∉ t.take n := fun hh =>
      hs2 (hsuf.mem ((List.take_prefix ..).mem hh))
    unfold anchorRepl at hx
    rcases anchor with _ | a
    · rcases List.mem_cons.mp hx with heq | hx2
      · exact absurd heq (by rcases hγ with rfl | rfl <;> decide)
      · rcases List.mem_append.mp hx2 with h3 | h3
        · exact hmemt (mem_artNum h3)
        · rcases List.mem_singleton.mp h3 with heq
          exact absurd heq
            (by rcases hγ with rfl | rfl <;> rcases hlast with rfl | rfl <;> decide)
    · rcases mem_anchorLinkText hx with h3 | h3 | h3 | h3 | h3
      · exact hγtarget h3
      · exact hanc a rfl h3
      · exact hmemt (mem_artNum h3)
      · exact absurd h3
          (by rcases hγ with rfl | rfl <;> rcases hlast with rfl | rfl <;> decide)
      · exact absurd h3 (by rcases hγ with rfl | rfl <;> decide)
  have h3 := hanchorStage '項' (Or.inl rfl) _ h2
  have h4 := hanchorStage '号' (Or.inr rfl) _ h3
  rw [linkifyLine_eq]
  exact applyPlaceholders_no_gamma _ _ h4 hext.2

theorem linkifyLoop_no_gamma {γ : Char} (hγ : γ = '\n' ∨ γ = '\r')
    {linkDir title : List Char} (hdir : γ ∉ linkDir)
    (htitle : γ ∉ sanitize_filename title) :
    ∀ (lines : List (List Char)) (anchor : Option (List Char)),
      (∀ l ∈ lines, γ ∉ l) → (∀ a, anchor = some a → γ ∉ a) →
      ∀ l ∈ (linkifyLoop linkDir title anchor lines).1, γ ∉ l := by
  intro lines
  induction lines with
  | nil =>
    intro anchor _ _ l hl
    rw [linkifyLoop_nil] at hl
    cases hl
  | cons line rest ih =>
    intro anchor hls hanc l hl
    by_cases hc : line.head? = some '#' ∨ containsLinkOpen line = true
    · rw [linkifyLoop_cons_keep hc] at hl
      rcases List.mem_cons.mp hl with rfl | hl2
      · exact hls l (List.mem_cons_self ..)
      · exact ih (anchorUpdate anchor line)
          (fun x hx => hls x (List.mem_cons_of_mem _ hx))
          (anchorUpdate_no_gamma hanc (hls line (List.mem_cons_self ..)))
          l hl2
    · rw [linkifyLoop_cons_proc hc] at hl
      have hrepl := linkifyLine_no_gamma hγ hdir htitle hanc
        (hls line (List.mem_cons_self ..))
      rcases List.mem_cons.mp hl with rfl | hl2
      · exact hrepl
      · exact ih (anchorUpdate anchor (linkifyLine linkDir title anchor line))
          (fun x hx => hls x (List.mem_cons_of_mem _ hx))
          (anchorUpdate_no_gamma hanc hrepl)
          l hl2

theorem rustLines_nil : rustLines [] = [] := rfl

theorem rustLines_full {s : List Char} (hs : s ≠ [])
    (hfull : (s.takeWhile (· ≠ '\n')).length = s.length) :
    rustLines s = [s.takeWhile (· ≠ '\n')] := by
  rcases s with _ | ⟨c, cs⟩
  · exact absurd rfl hs
  · unfold rustLines
    simp only [List.length_cons, rustLinesF]
    simp only [List.length_cons] at hfull
    rw [if_pos hfull]

theorem rustLines_split {s : List Char} (hs : s ≠ [])
    (hfull : (s.takeWhile (· ≠ '\n')).length ≠ s.length) :
    rustLines s = stripOneCR (s.takeWhile (· ≠ '\n')) ::
      rustLines (s.drop ((s.takeWhile (· ≠ '\n')).length + 1)) := by
  rcases s with _ | ⟨c, cs⟩
  · exact absurd rfl hs
  · unfold rustLines
    simp only [List.length_cons, rustLinesF]
    simp only [List.length_cons] at hfull
    rw [if_neg hfull]
    simp only [List.cons.injEq, true_and]
    exact rustLinesF_fuel cs.length _ _
      (by simp only [List.length_drop, List.length_cons]; omega) le_rfl

theorem takeWhile_append_of_all {p : Char → Bool} {l : List Char} {x : Char}
    {r : List Char} (hl : ∀ c ∈ l, p c = true) (hx : p x = false) :
    (l ++ x :: r).takeWhile p = l := by
  induction l with
  | nil => simp [List.takeWhile_cons, hx]
  | cons a l ih =>
    rw [List.cons_append, List.takeWhile_cons,
      hl a (List.mem_cons_self ..)]
    rw [ih fun c hc => hl c (List.mem_cons_of_mem _ hc)]
    simp

theorem rustLines_roundtrip :
    ∀ ls : List (List Char), (∀ l ∈ ls, '\n' ∉ l ∧ '\r' ∉ l) →
      rustLines (joinLinesNl ls) = ls := by
  intro ls
  induction ls with
  | nil => intro _; exact rustLines_nil
  | cons l ls ih =>
    intro h
    obtain ⟨hnl, hcr⟩ := h l (List.mem_cons_self ..)
    have hjoin : joinLinesNl (l :: ls) = l ++ '\n' :: joinLinesNl ls := rfl
    have htw : ((l ++ '\n' :: joinLinesNl ls).takeWhile (· ≠ '\n')) = l := by
      refine takeWhile_append_of_all ?_ (by simp)
      intro c hc
      simp only [decide_eq_true_eq]
      intro heq
      exact hnl (heq ▸ hc)
    rw [hjoin]
    rw [rustLines_split (by simp) (by rw [htw]; simp)]
    rw [htw]
    have hstrip : stripOneCR l = l := by
      unfold stripOneCR
      rw [if_neg]
      intro hlast
      exact hcr (mem_of_getLast?_some hlast)
    have hdrop : (l ++ '\n' :: joinLinesNl ls).drop (l.length + 1) =
        joinLinesNl ls := by
      rw [List.drop_append_eq_append_drop]
      rw [List.drop_of_length_le (by omega)]
      simp
    rw [hstrip, hdrop, ih fun x hx => h x (List.mem_cons_of_mem _ hx)]

theorem rustLines_no_nl :
    ∀ s : List Char, ∀ l ∈ rustLines s, '\n' ∉ l := by
  suffices H : ∀ fuel s, s.length ≤ fuel → ∀ l ∈ rustLines s, '\n' ∉ l from
    fun s => H s.length s le_rfl
  intro fuel
  induction fuel with
  | zero =>
    intro s hs l hl
    rw [List.length_eq_zero.mp (Nat.le_zero.mp hs), rustLines_nil] at hl
    cases hl
  | succ fuel ih =>
    intro s hs l hl
    rcases heq : s with _ | ⟨c, cs⟩
    · rw [heq, rustLines_nil] at hl
      cases hl
    · have hne : s ≠ [] := by rw [heq]; simp
      have hmemtw : ∀ x ∈ s.takeWhile (· ≠ '\n'), x ≠ '\n' := by
        intro x hx
        have := List.mem_takeWhile_imp hx
        simpa using this
      by_cases hfull : (s.takeWhile (· ≠ '\n')).length = s.length
      · rw [rustLines_full hne hfull] at hl
        rcases List.mem_singleton.mp hl with rfl
        intro hmem
        exact hmemtw _ hmem rfl
      · rw [rustLines_split hne hfull] at hl
        rcases List.mem_cons.mp hl with rfl | hl2
        · intro hmem
          unfold stripOneCR at hmem
          split_ifs at hmem
          · exact hmemtw _ ((List.dropLast_prefix _).mem hmem) rfl
          · exact hmemtw _ hmem rfl
        · have hpos : 0 < s.length := by rw [heq]; simp
          refine ih (s.drop ((s.takeWhile (· ≠ '\n')).length + 1))
            (by simp only [List.length_drop]; omega) l hl2

theorem linkify_markdown_idem_aux (md title dir : List Char)
    (hmd : ∀ l ∈ rustLines md, '\r' ∉ l)
    (ht1 : '\n' ∉ sanitize_filename title)
    (ht2 : '\r' ∉ sanitize_filename title)
    (hd1 : '\n' ∉ obsidian_dir dir) (hd2 : '\r' ∉ obsidian_dir dir) :
    (linkify_markdown (linkify_markdown md title dir).1 title dir).1 =
      (linkify_markdown md title dir).1 := by
  have houts_nl : ∀ l ∈ (linkifyLoop (obsidian_dir dir) title none
      (rustLines md)).1, '\n' ∉ l :=
    linkifyLoop_no_gamma (Or.inl rfl) hd1 ht1 (rustLines md) none
      (rustLines_no_nl md) (by intro a ha; cases ha)
  have houts_cr : ∀ l ∈ (linkifyLoop (obsidian_dir dir) title none
      (rustLines md)).1, '\r' ∉ l :=
    linkifyLoop_no_gamma (Or.inr rfl) hd2 ht2 (rustLines md) none
      hmd (by intro a ha; cases ha)
  have hrt : rustLines (joinLinesNl (linkifyLoop (obsidian_dir dir) title none
      (rustLines md)).1) = (linkifyLoop (obsidian_dir dir) title none
      (rustLines md)).1 :=
    rustLines_roundtrip _ fun l hl => ⟨houts_nl l hl, houts_cr l hl⟩
  show joinLinesNl (linkifyLoop (obsidian_dir dir) title none
      (rustLines (joinLinesNl (linkifyLoop (obsidian_dir dir) title none
        (rustLines md)).1))).1 = _
  rw [hrt]
  rw [linkifyLoop_idem (obsidian_dir dir) title (rustLines md) none]
  rfl

/-! ## Article headings, reference extraction, and the crawl orchestrator -/

/-- The leading `第X条(のY)?` capture of `ensure_article_headings`
(`(?m)^(第[nums]+条(?:の[nums]+)?)`, anchored at the line start). -/
def articleHeadToken (line : List Char) : Option (List Char) :=
  match line with
  | '第' :: cs =>
    let ns := cs.takeWhile numeralChar
    if ns.length = 0 then none
    else
      match cs.drop ns.length with
      | '条' :: rest2 =>
        match rest2 with
        | 'の' :: ds =>
          let ns2 := ds.takeWhile numeralChar
          if ns2.length = 0 then some ('第' :: ns ++ ['条'])
          else some ('第' :: ns ++ '条' :: 'の' :: ns2)
        | _ => some ('第' :: ns ++ ['条'])
      | _ => none
  | _ => none

/-- `ensure_article_headings`: prepend a `## 第X条` heading line before each
line that opens with an article number; heading lines pass through. -/
def ensure_article_headings (markdown : List Char) : List Char :=
  (rustLines markdown).foldr
    (fun line acc =>
      if line.head? = some '#' then line ++ '\n' :: acc
      else
        match articleHeadToken line with
        | some token =>
          if rustTrim line ≠ token then
            ('#' :: '#' :: ' ' :: token ++ ['\n']) ++ line ++ '\n' :: acc
          else ('#' :: '#' :: ' ' :: token ++ ['\n']) ++ acc
        | none => line ++ '\n' :: acc)
    []

/-- All matches of the external-reference pattern over the whole body, as
(name group, numeral group) pairs, fuelled scan. -/
def extRefScanF : Nat → List Char → List (List Char × List Char)
  | _, [] => []
  | 0, _ :: _ => []
  | fuel + 1, c :: cs =>
    match extMatchAt (c :: cs) with
    | some (k, sl, al) =>
      ((c :: cs).take (k + sl), (((c :: cs).drop (k + sl)).drop 1).take (al - 2)) ::
        extRefScanF fuel ((c :: cs).drop (k + sl + al))
    | none => extRefScanF fuel cs

/-- All matches of the external-reference pattern (`captures_iter`). -/
def extRefMatches (s : List Char) : List (List Char × List Char) :=
  extRefScanF s.length s

/-- An extracted outbound reference. -/
structure LawRef where
  source_law : List Char
  law_title : List Char
  article : List Char
deriving Repr, DecidableEq

/-- `resolve_law_title_from_fragment`: normalize, exact dictionary hit,
else the longest dictionary key contained in the normalized token
(strict-length improvement during the scan), else the token itself. -/
def resolve_law_title_from_fragment (fragment : List Char)
    (dict : LawNameDictionary) : Option (List Char) :=
  match normalize_law_ref_title fragment with
  | none => none
  | some normalized =>
    match dictGet dict normalized with
    | some entry => some entry.law_title
    | none =>
      let best := dict.foldl
        (fun best p =>
          if containsSub p.1 normalized = true then
            match best with
            | some b => if p.1.length > b.length then some p.1 else best
            | none => some p.1
          else best)
        none
      match best with
      | some key => (dictGet dict key).map (·.law_title)
      | none => some normalized

/-- `HashSet::insert`-style deduplicated accumulation. -/
def insertRefIfAbsent (acc : List LawRef) (r : LawRef) : List LawRef :=
  if r ∈ acc then acc else acc ++ [r]

/-- `extract_external_references`: scan the rendered body for
`<name>第<n>条` matches, resolve each name via the dictionary, and
deduplicate the resulting references. -/
def extract_external_references (markdown : List Char)
    (dict : LawNameDictionary) (source_law : List Char) : List LawRef :=
  (extRefMatches markdown).foldl
    (fun acc gn =>
      match resolve_law_title_from_fragment gn.1 dict with
      | some t => insertRefIfAbsent acc ⟨source_law, t, '第' :: gn.2 ++ ['条']⟩
      | none => acc)
    []

/-- An unresolved reference event of one run. -/
structure UnresolvedRef where
  source_law : List Char
  aliasName : List Char
  sample_context : Option (List Char)
deriving Repr, DecidableEq

/-- One persisted unresolved-reference record. -/
structure UnresolvedRefRecord where
  source_law : List Char
  aliasName : List Char
  first_seen_at : List Char
  last_seen_at : List Char
  count : Nat
  sample_context : Option (List Char)
  status : List Char
deriving Repr, DecidableEq

/-- The file-system slice the run touches: note files, the dictionary
file, and the unresolved-reference store file. -/
structure FS where
  notes : List (List Char × List Char)
  dictFile : Option LawNameDictionary
  storeFile : Option (List UnresolvedRefRecord)
deriving Repr, DecidableEq

/-- Run errors (`anyhow` bail sites of the source, by shape). -/
inductive RunErr where
  | api (msg : List Char)
  | notFound (title : List Char)
  | ambiguous (title : List Char)
  | inputErr
  | badChoice
  | noteExists (path : List Char)
deriving Repr, DecidableEq

/-- The transport collaborator (out of scope per the spec): search and
fetch, each able to fail. -/
structure Api where
  search : List Char → Except (List Char) (List LawCandidate)
  fetch : LawCandidate → Except (List Char) LawContents

/-- The `Processor` state (fields the orchestration logic reads/writes;
`now` stands in for `Utc::now`). -/
structure Processor where
  output_dir : List Char
  max_depth : Nat
  no_overwrite : Bool
  non_interactive : Bool
  dictionary : LawNameDictionary
  dictionary_dirty : Bool
  unresolved_refs : List UnresolvedRef
  now : List Char
deriving Repr

/-- `LawCandidate::identity_key`: id, then number, then title. -/
def LawCandidate.identity_key (c : LawCandidate) : List Char :=
  match c.law_id with
  | some id => 'i' :: 'd' :: ':' :: id
  | none =>
    match c.law_num with
    | some num => 'n' :: 'u' :: 'm' :: ':' :: num
    | none => 't' :: 'i' :: 't' :: 'l' :: 'e' :: ':' :: c.law_title

/-- `Processor::lookup_dictionary`. -/
def lookup_dictionary (p : Processor) (title : List Char) :
    Option LawDictEntry :=
  dictGet p.dictionary ((normalize_law_ref_title title).getD title)

/-- Register candidate aliases into the processor, updating the dirty
flag exactly when an insertion happened. -/
def applyRegisterAliases (p : Processor) (query : List Char)
    (c : LawCandidate) : Processor :=
  let dc := register_candidate_aliases p.dictionary query c
  { p with dictionary := dc.1, dictionary_dirty := p.dictionary_dirty || dc.2 }

/-- Register the fetched canonical title into the processor. -/
def applyRegisterContents (p : Processor) (law : LawContents) : Processor :=
  let dc := register_law_contents p.dictionary law
  { p with dictionary := dc.1, dictionary_dirty := p.dictionary_dirty || dc.2 }

/-- `Processor::resolve_candidate`: dictionary first, then search, then
unique-result / exact-title / interactive selection. -/
def resolve_candidate (api : Api) (choose : List LawCandidate → Option Nat)
    (p : Processor) (title : List Char) :
    Except RunErr (LawCandidate × Processor) :=
  match lookup_dictionary p title with
  | some entry =>
    .ok (⟨entry.law_id, entry.law_num, entry.law_title, none⟩, p)
  | none =>
    match api.search title with
    | .error e => .error (.api e)
    | .ok [] => .error (.notFound title)
    | .ok [c] => .ok (c, applyRegisterAliases p title c)
    | .ok candidates =>
      if p.non_interactive then
        match candidates.filter (fun c => c.law_title = title) with
        | [c] => .ok (c, applyRegisterAliases p title c)
        | _ => .error (.ambiguous title)
      else
        match choose candidates with
        | none => .error .inputErr
        | some idx =>
          if idx = 0 ∨ idx > candidates.length then .error .badChoice
          else
            let c := candidates.getD (idx - 1) ⟨none, none, [], none⟩
            .ok (c, applyRegisterAliases p title c)

/-- `escape_yaml`: backslash-escape `\` and `"`. -/
def escape_yaml (s : List Char) : List Char :=
  s.flatMap fun c =>
    if c = '\\' then ['\\', '\\']
    else if c = '"' then ['\\', '"'] else [c]

/-- `PathBuf::join` for the paths the program builds. -/
def joinPath (dir file : List Char) : List Char := dir ++ '/' :: file

/-- The YAML frontmatter block `write_law_note` renders. -/
def frontmatter (p : Processor) (law : LawContents) (depth : Nat) :
    List Char :=
  "---\nlaw_title: \"".data ++ escape_yaml law.law_title ++
  "\"\nlaw_id: \"".data ++ escape_yaml (law.law_id.getD []) ++
  "\"\nlaw_num: \"".data ++ escape_yaml (law.law_num.getD []) ++
  "\"\nsource_api: \"v2\"\nfetched_at: \"".data ++ p.now ++
  "\"\ndepth: ".data ++ natDigits depth ++
  "\nhas_original_xml: ".data ++
  (if law.original_xml.isSome then "true".data else "false".data) ++
  "\n---\n\n".data

/-- Look a note up in the modelled file system. -/
def fsGetNote (fs : FS) (path : List Char) : Option (List Char) :=
  (fs.notes.find? (fun n => n.1 = path)).map (·.2)

/-- Write (or overwrite) a note in the modelled file system. -/
def fsWriteNote (fs : FS) (path content : List Char) : FS :=
  { fs with notes := (path, content) :: fs.notes }

/-- `Processor::write_law_note`: refuse to overwrite when `no_overwrite`
is set and the file exists; otherwise add article headings, linkify,
record unresolved aliases, write frontmatter + body, and register the
canonical title. Returns the file system and either an error or the
updated processor with the note stem. -/
def write_law_note (p : Processor) (fs : FS) (law : LawContents)
    (depth : Nat) : FS × Except RunErr (Processor × List Char) :=
  let file_name := sanitize_filename law.law_title
  let path := joinPath p.output_dir (file_name ++ '.' :: 'm' :: 'd' :: [])
  if p.no_overwrite ∧ (fsGetNote fs path).isSome then
    (fs, .error (.noteExists path))
  else
    let base := ensure_article_headings law.markdown
    let mdu := linkify_markdown base law.law_title p.output_dir
    let newRefs := mdu.2.map (fun x : List Char =>
      (⟨law.law_title, x, none⟩ : UnresolvedRef))
    let p1 := { p with unresolved_refs := p.unresolved_refs ++ newRefs }
    let body := frontmatter p1 law depth ++ trimEndChar '\n' mdu.1 ++ ['\n']
    (fsWriteNote fs path body, .ok (applyRegisterContents p1 law, file_name))

/-- Events observable on the shared state files during a run. -/
inductive Event where
  | fetched (key : List Char)
  | wroteNote (name : List Char)
  | savedDict
  | savedStore
deriving Repr, DecidableEq

/-- `Processor::save_dictionary`: write the file and clear the flag only
when dirty. -/
def save_dictionary (p : Processor) (fs : FS) :
    Processor × FS × List Event :=
  if p.dictionary_dirty then
    ({ p with dictionary_dirty := false },
     { fs with dictFile := some p.dictionary }, [.savedDict])
  else (p, fs, [])

/-- Replace the first element satisfying the predicate; `none` when no
element matches. -/
def updateFirst (pred : α → Bool) (f : α → α) : List α → Option (List α)
  | [] => none
  | x :: xs =>
    if pred x then some (f x :: xs)
    else (updateFirst pred f xs).map (x :: ·)

/-- Merge one in-memory unresolved reference into the persisted store:
bump the matching (source, alias) record or append a fresh one. -/
def mergeUnresolved (now : List Char) (store : List UnresolvedRefRecord)
    (e : UnresolvedRef) : List UnresolvedRefRecord :=
  match updateFirst
      (fun r => decide (r.source_law = e.source_law ∧ r.aliasName = e.aliasName))
      (fun r => { r with
        count := r.count + 1
        last_seen_at := now
        sample_context :=
          if r.sample_context = none ∧ e.sample_context ≠ none then
            e.sample_context
          else r.sample_context })
      store with
  | some st => st
  | none =>
    store ++ [{
      source_law := e.source_law
      aliasName := e.aliasName
      first_seen_at := now
      last_seen_at := now
      count := 1
      sample_context := e.sample_context
      status := "pending".data }]

/-- `Processor::save_unresolved_refs`: no-op when nothing was collected,
otherwise merge into the store file. -/
def save_unresolved_refs (p : Processor) (fs : FS) : FS × List Event :=
  if p.unresolved_refs = [] then (fs, [])
  else
    let merged := p.unresolved_refs.foldl (mergeUnresolved p.now)
      (fs.storeFile.getD [])
    ({ fs with storeFile := some merged }, [.savedStore])

/-- A queue entry: title to resolve, depth, and the law that referenced it. -/
abbrev QEntry := List Char × Nat × List Char

/-- The `Processor::run` work loop over the explicit queue, with a fuel
bound (`none` = fuel exhausted), emitting the event trace. -/
def runLoop (api : Api) (choose : List LawCandidate → Option Nat) :
    Nat → Processor → FS → List (List Char) → List QEntry → List Event →
    Option (Except RunErr (Processor × FS) × List Event)
  | 0, _, _, _, _, _ => none
  | _ + 1, p, fs, _, [], trace =>
    let fe := save_unresolved_refs p fs
    let pfe := save_dictionary p fe.1
    some (.ok (pfe.1, pfe.2.1), trace ++ fe.2 ++ pfe.2.2)
  | fuel + 1, p, fs, visited, (title, depth, source) :: rest, trace =>
    if depth > p.max_depth then
      runLoop api choose fuel p fs visited rest trace
    else
      match resolve_candidate api choose p title with
      | .error e =>
        if depth = 0 then some (.error e, trace)
        else
          runLoop api choose fuel
            { p with unresolved_refs := p.unresolved_refs ++
              [⟨source, title, some "参照先法令名の解決失敗".data⟩] }
            fs visited rest trace
      | .ok cp =>
        let key := cp.1.identity_key
        if key ∈ visited then runLoop api choose fuel cp.2 fs visited rest trace
        else
          match api.fetch cp.1 with
          | .error e => some (.error (.api e), trace ++ [.fetched key])
          | .ok contents =>
            match write_law_note cp.2 fs contents depth with
            | (_, .error e) => some (.error e, trace ++ [.fetched key])
            | (fs2, .ok pn) =>
              runLoop api choose fuel pn.1 fs2 (key :: visited)
                (rest ++ (extract_external_references contents.markdown
                    pn.1.dictionary contents.law_title).map
                  (fun r => (r.law_title, depth + 1, r.source_law)))
                (trace ++ [.fetched key, .wroteNote pn.2])

/-- `Processor::run`: seed the queue with the root title at depth 0. -/
def processor_run (api : Api) (choose : List LawCandidate → Option Nat)
    (fuel : Nat) (p : Processor) (fs : FS) (root : List Char) :
    Option (Except RunErr (Processor × FS) × List Event) :=
  runLoop api choose fuel p fs [] [(root, 0, root)] []

/-! ## Run-level observations and concrete fixtures -/

/-- The keys of the `fetched` events of a trace. -/
def fetchedKeys (evs : List Event) : List (List Char) :=
  evs.filterMap fun e =>
    match e with
    | .fetched k => some k
    | _ => none

/-- Whether an event is a write of one of the two cross-run state files. -/
def eventSaves : Event → Bool
  | .savedDict => true
  | .savedStore => true
  | _ => false

/-- A trace slice with no state-file write. -/
def saveFree (evs : List Event) : Prop :=
  ∀ e ∈ evs, eventSaves e = false

/-- Relation between the running processor's dictionary/dirty-flag pair
and the dictionary `d0` the run started from: the flag is clear exactly
while the dictionary is still `d0`, and once set the dictionary has
strictly grown. -/
def DirtyInv (d0 : LawNameDictionary) (p : Processor) : Prop :=
  (p.dictionary_dirty = false ∧ p.dictionary = d0) ∨
  (p.dictionary_dirty = true ∧ d0.length < p.dictionary.length)

/-- An API stub whose every call fails. -/
def noApi : Api := ⟨fun _ => .error "e".data, fun _ => .error "e".data⟩

/-- A chooser that never answers (used with non-interactive fixtures). -/
def noChoose : List LawCandidate → Option Nat := fun _ => none

/-- A fresh non-interactive processor over `laws/` with depth bound 0. -/
def failP : Processor := ⟨"laws".data, 0, false, true, [], false, [], "T".data⟩

/-- The empty file system. -/
def emptyFS : FS := ⟨[], none, none⟩

/-- A two-law API stub: 民法 cites 刑法, 刑法 cites both. -/
def demoApi : Api where
  search t :=
    if t = "民法".data then
      .ok [⟨some "m1".data, some "n1".data, "民法".data, none⟩]
    else if t = "刑法".data then
      .ok [⟨some "k1".data, some "n2".data, "刑法".data, none⟩]
    else .error "noapi".data
  fetch c :=
    if c.law_id = some "m1".data then
      .ok ⟨some "m1".data, some "n1".data, "民法".data,
        "第1条 刑法第2条を参照。前条も。".data, none⟩
    else if c.law_id = some "k1".data then
      .ok ⟨some "k1".data, some "n2".data, "刑法".data,
        "本文。民法第1条と刑法第2条。".data, none⟩
    else .error "nofetch".data

/-- A fresh non-interactive processor over `laws/` with depth bound 1. -/
def demoP : Processor := ⟨"laws".data, 1, false, true, [], false, [], "T0".data⟩

/-- Fetched contents used by the overwrite-protection fixture. -/
def c8law : LawContents :=
  ⟨some "m1".data, some "n1".data, "民法".data, "x".data, none⟩

/-- A processor with the no-overwrite flag set. -/
def c8p : Processor := ⟨"laws".data, 0, true, true, [], false, [], "T".data⟩

/-- A file system already holding the 民法 note. -/
def c8fs : FS := ⟨[("laws/民法.md".data, "old".data)], none, none⟩

/-! ### Unfolding equations for the work loop -/

theorem runLoop_drain (api : Api) (choose : List LawCandidate → Option Nat)
    (fuel : Nat) (p : Processor) (fs : FS) (visited : List (List Char))
    (trace : List Event) :
    runLoop api choose (fuel + 1) p fs visited [] trace =
      some (.ok ((save_dictionary p (save_unresolved_refs p fs).1).1,
          (save_dictionary p (save_unresolved_refs p fs).1).2.1),
        trace ++ (save_unresolved_refs p fs).2 ++
          (save_dictionary p (save_unresolved_refs p fs).1).2.2) := rfl

theorem runLoop_skip_depth {api : Api} {choose : List LawCandidate → Option Nat}
    {fuel : Nat} {p : Processor} {fs : FS} {visited : List (List Char)}
    {title source : List Char} {depth : Nat} {rest : List QEntry}
    {trace : List Event} (hd : depth > p.max_depth) :
    runLoop api choose (fuel + 1) p fs visited
        ((title, depth, source) :: rest) trace =
      runLoop api choose fuel p fs visited rest trace := by
  simp only [runLoop]
  rw [if_pos hd]

theorem runLoop_resolve_err {api : Api} {choose : List LawCandidate → Option Nat}
    {fuel : Nat} {p : Processor} {fs : FS} {visited : List (List Char)}
    {title source : List Char} {depth : Nat} {rest : List QEntry}
    {trace : List Event} {e : RunErr} (hd : ¬ depth > p.max_depth)
    (hres : resolve_candidate api choose p title = .error e) :
    runLoop api choose (fuel + 1) p fs visited
        ((title, depth, source) :: rest) trace =
      if depth = 0 then some (.error e, trace)
      else
        runLoop api choose fuel
          { p with unresolved_refs := p.unresolved_refs ++
            [⟨source, title, some "参照先法令名の解決失敗".data⟩] }
          fs visited rest trace := by
  simp only [runLoop]
  rw [if_neg hd, hres]

theorem runLoop_visited {api : Api} {choose : List LawCandidate → Option Nat}
    {fuel : Nat} {p : Processor} {fs : FS} {visited : List (List Char)}
    {title source : List Char} {depth : Nat} {rest : List QEntry}
    {trace : List Event} {cp : LawCandidate × Processor}
    (hd : ¬ depth > p.max_depth)
    (hres : resolve_candidate api choose p title = .ok cp)
    (hv : cp.1.identity_key ∈ visited) :
    runLoop api choose (fuel + 1) p fs visited
        ((title, depth, source) :: rest) trace =
      runLoop api choose fuel cp.2 fs visited rest trace := by
  simp only [runLoop]
  rw [if_neg hd, hres]
  dsimp only
  rw [if_pos hv]

theorem runLoop_fetch_err {api : Api} {choose : List LawCandidate → Option Nat}
    {fuel : Nat} {p : Processor} {fs : FS} {visited : List (List Char)}
    {title source : List Char} {depth : Nat} {rest : List QEntry}
    {trace : List Event} {cp : LawCandidate × Processor} {e : List Char}
    (hd : ¬ depth > p.max_depth)
    (hres : resolve_candidate api choose p title = .ok cp)
    (hv : cp.1.identity_key ∉ visited)
    (hf : api.fetch cp.1 = .error e) :
    runLoop api choose (fuel + 1) p fs visited
        ((title, depth, source) :: rest) trace =
      some (.error (.api e), trace ++ [.fetched cp.1.identity_key]) := by
  simp only [runLoop]
  rw [if_neg hd, hres]
  dsimp only
  rw [if_neg hv, hf]

theorem runLoop_write_err {api : Api} {choose : List LawCandidate → Option Nat}
    {fuel : Nat} {p : Processor} {fs : FS} {visited : List (List Char)}
    {title source : List Char} {depth : Nat} {rest : List QEntry}
    {trace : List Event} {cp : LawCandidate × Processor}
    {contents : LawContents} {fsx : FS} {e : RunErr}
    (hd : ¬ depth > p.max_depth)
    (hres : resolve_candidate api choose p title = .ok cp)
    (hv : cp.1.identity_key ∉ visited)
    (hf : api.fetch cp.1 = .ok contents)
    (hw : write_law_note cp.2 fs contents depth = (fsx, .error e)) :
    runLoop api choose (fuel + 1) p fs visited
        ((title, depth, source) :: rest) trace =
      some (.error e, trace ++ [.fetched cp.1.identity_key]) := by
  simp only [runLoop]
  rw [if_neg hd, hres]
  dsimp only
  rw [if_neg hv, hf]
  dsimp only
  rw [hw]

theorem runLoop_step_ok {api : Api} {choose : List LawCandidate → Option Nat}
    {fuel : Nat} {p : Processor} {fs : FS} {visited : List (List Char)}
    {title source : List Char} {depth : Nat} {rest : List QEntry}
    {trace : List Event} {cp : LawCandidate × Processor}
    {contents : LawContents} {fs2 : FS} {pn : Processor × List Char}
    (hd : ¬ depth > p.max_depth)
    (hres : resolve_candidate api choose p title = .ok cp)
    (hv : cp.1.identity_key ∉ visited)
    (hf : api.fetch cp.1 = .ok contents)
    (hw : write_law_note cp.2 fs contents depth = (fs2, .ok pn)) :
    runLoop api choose (fuel + 1) p fs visited
        ((title, depth, source) :: rest) trace =
      runLoop api choose fuel pn.1 fs2 (cp.1.identity_key :: visited)
        (rest ++ (extract_external_references contents.markdown
            pn.1.dictionary contents.law_title).map
          (fun r => (r.law_title, depth + 1, r.source_law)))
        (trace ++ [.fetched cp.1.identity_key, .wroteNote pn.2]) := by
  simp only [runLoop]
  rw [if_neg hd, hres]
  dsimp only
  rw [if_neg hv, hf]
  dsimp only
  rw [hw]

/-! ### Dictionary-growth invariants of the registration paths -/
theorem registerAliasStep_graph (entry : LawDictEntry)
    (dc : LawNameDictionary × Bool) (al : List Char) :
    registerAliasStep entry dc al = dc ∨
      (dc.1.length < (registerAliasStep entry dc al).1.length ∧
        (registerAliasStep entry dc al).2 = true) := by
  unfold registerAliasStep
  rcases normalize_law_ref_title al with _ | key
  · exact Or.inl rfl
  · dsimp only
    split_ifs with h
    · exact Or.inr ⟨by simp [dictInsert], rfl⟩
    · exact Or.inl rfl

theorem register_candidate_aliases_graph (dict : LawNameDictionary)
    (query : List Char) (c : LawCandidate) :
    (register_candidate_aliases dict query c = (dict, false)) ∨
      (dict.length < (register_candidate_aliases dict query c).1.length ∧
        (register_candidate_aliases dict query c).2 = true) := by
  unfold register_candidate_aliases
  simp only [List.foldl_cons, List.foldl_nil]
  rcases registerAliasStep_graph ⟨c.law_id, c.law_num, c.law_title⟩
      (dict, false) query with h1 | h1
  · rw [h1]
    rcases registerAliasStep_graph ⟨c.law_id, c.law_num, c.law_title⟩
        (dict, false) c.law_title with h2 | h2
    · rw [h2]; exact Or.inl rfl
    · exact Or.inr h2
  · rcases registerAliasStep_graph ⟨c.law_id, c.law_num, c.law_title⟩
        (registerAliasStep ⟨c.law_id, c.law_num, c.law_title⟩ (dict, false) query)
        c.law_title with h2 | h2
    · rw [h2]; exact Or.inr h1
    · exact Or.inr ⟨lt_trans h1.1 h2.1, h2.2⟩

theorem register_law_contents_graph (dict : LawNameDictionary)
    (law : LawContents) :
    (register_law_contents dict law = (dict, false)) ∨
      (dict.length < (register_law_contents dict law).1.length ∧
        (register_law_contents dict law).2 = true) := by
  unfold register_law_contents
  rcases normalize_law_ref_title law.law_title with _ | key
  · exact Or.inl rfl
  · dsimp only
    split_ifs with h
    · exact Or.inr ⟨by simp [dictInsert], rfl⟩
    · exact Or.inl rfl

theorem DirtyInv_applyRegisterAliases {d0 : LawNameDictionary} {p : Processor}
    (h : DirtyInv d0 p) (query : List Char) (c : LawCandidate) :
    DirtyInv d0 (applyRegisterAliases p query c) := by
  unfold applyRegisterAliases
  rcases register_candidate_aliases_graph p.dictionary query c with hg | hg
  · rw [hg]
    rcases h with ⟨h1, h2⟩ | ⟨h1, h2⟩
    · exact Or.inl ⟨by simp [h1], h2⟩
    · exact Or.inr ⟨by simp [h1], h2⟩
  · right
    refine ⟨by simp [hg.2], ?_⟩
    dsimp only
    rcases h with ⟨h1, h2⟩ | ⟨h1, h2⟩
    · have hlen : d0.length = p.dictionary.length := by rw [h2]
      rw [hlen]; exact hg.1
    · exact lt_trans h2 hg.1

theorem DirtyInv_applyRegisterContents {d0 : LawNameDictionary} {p : Processor}
    (h : DirtyInv d0 p) (law : LawContents) :
    DirtyInv d0 (applyRegisterContents p law) := by
  unfold applyRegisterContents
  rcases register_law_contents_graph p.dictionary law with hg | hg
  · rw [hg]
    rcases h with ⟨h1, h2⟩ | ⟨h1, h2⟩
    · exact Or.inl ⟨by simp [h1], h2⟩
    · exact Or.inr ⟨by simp [h1], h2⟩
  · right
    refine ⟨by simp [hg.2], ?_⟩
    dsimp only
    rcases h with ⟨h1, h2⟩ | ⟨h1, h2⟩
    · have hlen : d0.length = p.dictionary.length := by rw [h2]
      rw [hlen]; exact hg.1
    · exact lt_trans h2 hg.1

theorem resolve_candidate_DirtyInv {api : Api}
    {choose : List LawCandidate → Option Nat} {p : Processor}
    {title : List Char} {cp : LawCandidate × Processor}
    {d0 : LawNameDictionary} (h : DirtyInv d0 p)
    (hres : resolve_candidate api choose p title = .ok cp) :
    DirtyInv d0 cp.2 := by
  unfold resolve_candidate at hres
  rcases hl : lookup_dictionary p title with _ | entry
  · rw [hl] at hres
    dsimp only at hres
    rcases hs : api.search title with e | cands
    · rw [hs] at hres; cases hres
    · rw [hs] at hres
      rcases cands with _ | ⟨c1, cands'⟩
      · cases hres
      rcases cands' with _ | ⟨c2, cands''⟩
      · dsimp only at hres
        cases hres
        exact DirtyInv_applyRegisterAliases h title c1
      dsimp only at hres
      split_ifs at hres
      · rcases hfil : (c1 :: c2 :: cands'').filter
            (fun c => decide (c.law_title = title)) with _ | ⟨c, cs'⟩
        · rw [hfil] at hres; cases hres
        · rw [hfil] at hres
          rcases cs' with _ | ⟨c', cs''⟩
          · cases hres
            exact DirtyInv_applyRegisterAliases h title c
          · cases hres
      · rcases hch : choose (c1 :: c2 :: cands'') with _ | idx
        · rw [hch] at hres; cases hres
        · rw [hch] at hres
          dsimp only at hres
          split_ifs at hres
          cases hres
          exact DirtyInv_applyRegisterAliases h title _
  · rw [hl] at hres
    dsimp only at hres
    cases hres
    exact h

/-! ### Frame facts for note writing and the end-of-run saves -/

theorem write_law_note_ok_spec {p : Processor} {fs : FS} {law : LawContents}
    {depth : Nat} {fs2 : FS} {pn : Processor × List Char}
    (hw : write_law_note p fs law depth = (fs2, .ok pn)) :
    fs2.dictFile = fs.dictFile ∧ fs2.storeFile = fs.storeFile ∧
      pn.1.dictionary_dirty = (applyRegisterContents { p with
        unresolved_refs := p.unresolved_refs ++
          (linkify_markdown (ensure_article_headings law.markdown)
            law.law_title p.output_dir).2.map
            (fun x : List Char => (⟨law.law_title, x, none⟩ : UnresolvedRef)) }
        law).dictionary_dirty ∧
      pn.1.dictionary = (applyRegisterContents p law).dictionary := by
  unfold write_law_note at hw
  dsimp only at hw
  split_ifs at hw
  · rw [Prod.mk.injEq] at hw
    cases hw.2
  · rw [Prod.mk.injEq] at hw
    obtain ⟨hfs, hok⟩ := hw
    injection hok with hok2
    subst hok2
    subst hfs
    refine ⟨rfl, rfl, rfl, ?_⟩
    unfold applyRegisterContents
    rfl

theorem write_law_note_DirtyInv {p : Processor} {fs : FS} {law : LawContents}
    {depth : Nat} {fs2 : FS} {pn : Processor × List Char}
    {d0 : LawNameDictionary} (h : DirtyInv d0 p)
    (hw : write_law_note p fs law depth = (fs2, .ok pn)) :
    DirtyInv d0 pn.1 := by
  unfold write_law_note at hw
  dsimp only at hw
  split_ifs at hw
  · rw [Prod.mk.injEq] at hw
    cases hw.2
  · rw [Prod.mk.injEq] at hw
    obtain ⟨hfs, hok⟩ := hw
    injection hok with hok2
    subst hok2
    refine DirtyInv_applyRegisterContents ?_ law
    rcases h with ⟨h1, h2⟩ | ⟨h1, h2⟩
    · exact Or.inl ⟨h1, h2⟩
    · exact Or.inr ⟨h1, h2⟩

theorem write_law_note_err_fs {p : Processor} {fs : FS} {law : LawContents}
    {depth : Nat} {fsx : FS} {e : RunErr}
    (hw : write_law_note p fs law depth = (fsx, .error e)) : fsx = fs := by
  unfold write_law_note at hw
  dsimp only at hw
  split_ifs at hw
  · rw [Prod.mk.injEq] at hw
    exact hw.1.symm
  · rw [Prod.mk.injEq] at hw
    cases hw.2

theorem save_unresolved_refs_spec (p : Processor) (fs : FS) :
    ((save_unresolved_refs p fs).1.dictFile = fs.dictFile ∧
      (save_unresolved_refs p fs).1.notes = fs.notes) ∧
    ((save_unresolved_refs p fs).2 = [] ∨
      (save_unresolved_refs p fs).2 = [.savedStore]) := by
  unfold save_unresolved_refs
  split_ifs
  · exact ⟨⟨rfl, rfl⟩, Or.inl rfl⟩
  · exact ⟨⟨rfl, rfl⟩, Or.inr rfl⟩

theorem save_dictionary_spec (p : Processor) (fs : FS) :
    (save_dictionary p fs).2.1.storeFile = fs.storeFile ∧
    (save_dictionary p fs).2.1.notes = fs.notes ∧
    (save_dictionary p fs).1.dictionary = p.dictionary ∧
    (save_dictionary p fs).1.dictionary_dirty = false ∧
    (p.dictionary_dirty = true →
      (save_dictionary p fs).2.2 = [.savedDict] ∧
      (save_dictionary p fs).2.1.dictFile = some p.dictionary) ∧
    (p.dictionary_dirty = false →
      (save_dictionary p fs).2.2 = [] ∧
      (save_dictionary p fs).2.1.dictFile = fs.dictFile ∧
      (save_dictionary p fs).1 = p) := by
  unfold save_dictionary
  by_cases hd : p.dictionary_dirty = true
  · rw [if_pos hd]
    exact ⟨rfl, rfl, rfl, rfl, fun _ => ⟨rfl, rfl⟩,
      fun h => by rw [h] at hd; cases hd⟩
  · rw [if_neg hd]
    have hd2 : p.dictionary_dirty = false := by simpa using hd
    exact ⟨rfl, rfl, rfl, hd2, fun h => absurd h hd,
      fun _ => ⟨rfl, rfl, rfl⟩⟩

/-! ### Run-level invariants -/

theorem save_dictionary_events (p : Processor) (fs : FS) :
    (save_dictionary p fs).2.2 = [] ∨
      (save_dictionary p fs).2.2 = [Event.savedDict] := by
  unfold save_dictionary
  split_ifs
  · exact Or.inr rfl
  · exact Or.inl rfl

theorem fetchedKeys_append (a b : List Event) :
    fetchedKeys (a ++ b) = fetchedKeys a ++ fetchedKeys b := by
  simp [fetchedKeys, List.filterMap_append]

theorem fetchedKeys_saves_nil {evs : List Event}
    (h : evs = [] ∨ evs = [Event.savedStore] ∨ evs = [Event.savedDict]) :
    fetchedKeys evs = [] := by
  rcases h with rfl | rfl | rfl <;> rfl

theorem runLoop_fetchedKeys_nodup (api : Api)
    (choose : List LawCandidate → Option Nat) :
    ∀ fuel (p : Processor) (fs : FS) (visited : List (List Char))
      (queue : List QEntry) (trace : List Event)
      (r : Except RunErr (Processor × FS)) (evs : List Event),
      runLoop api choose fuel p fs visited queue trace = some (r, evs) →
      (fetchedKeys trace).Nodup →
      (∀ k ∈ fetchedKeys trace, k ∈ visited) →
      (fetchedKeys evs).Nodup := by
  intro fuel
  induction fuel with
  | zero =>
    intro p fs visited queue trace r evs h
    cases h
  | succ fuel ih =>
    intro p fs visited queue trace r evs h hnd hsub
    cases queue with
    | nil =>
      rw [runLoop_drain] at h
      injection h with h
      rw [Prod.mk.injEq] at h
      have hevs := h.2
      subst hevs
      have h1 : fetchedKeys (save_unresolved_refs p fs).2 = [] := by
        apply fetchedKeys_saves_nil
        rcases (save_unresolved_refs_spec p fs).2 with h1 | h1
        · exact Or.inl h1
        · exact Or.inr (Or.inl h1)
      have h2 : fetchedKeys
          (save_dictionary p (save_unresolved_refs p fs).1).2.2 = [] := by
        apply fetchedKeys_saves_nil
        rcases save_dictionary_events p (save_unresolved_refs p fs).1
            with hx | hx
        · exact Or.inl hx
        · exact Or.inr (Or.inr hx)
      rw [fetchedKeys_append, fetchedKeys_append, h1, h2]
      simpa using hnd
    | cons entry rest =>
      obtain ⟨title, depth, source⟩ := entry
      by_cases hd : depth > p.max_depth
      · rw [runLoop_skip_depth hd] at h
        exact ih p fs visited rest trace r evs h hnd hsub
      · rcases hres : resolve_candidate api choose p title with e | cp
        · rw [runLoop_resolve_err hd hres] at h
          split_ifs at h
          · injection h with h
            rw [Prod.mk.injEq] at h
            have hevs := h.2
            subst hevs
            exact hnd
          · exact ih _ fs visited rest trace r evs h hnd hsub
        · by_cases hv : cp.1.identity_key ∈ visited
          · rw [runLoop_visited hd hres hv] at h
            exact ih cp.2 fs visited rest trace r evs h hnd hsub
          · have hkey : cp.1.identity_key ∉ fetchedKeys trace := by
              intro hk
              exact hv (hsub _ hk)
            rcases hf : api.fetch cp.1 with e | contents
            · rw [runLoop_fetch_err hd hres hv hf] at h
              injection h with h
              rw [Prod.mk.injEq] at h
              have hevs := h.2
              subst hevs
              rw [fetchedKeys_append]
              simp only [List.nodup_append]
              refine ⟨hnd, List.nodup_singleton _, ?_⟩
              intro k hk1 hk2
              simp only [fetchedKeys, List.filterMap_cons, List.filterMap_nil,
                List.mem_cons, List.not_mem_nil, or_false] at hk2
              subst hk2
              exact hkey hk1
            · rcases hwr : write_law_note cp.2 fs contents depth
                  with ⟨fsx, wres⟩
              rcases wres with e2 | pn
              · rw [runLoop_write_err hd hres hv hf hwr] at h
                injection h with h
                rw [Prod.mk.injEq] at h
                have hevs := h.2
                subst hevs
                rw [fetchedKeys_append]
                simp only [List.nodup_append]
                refine ⟨hnd, List.nodup_singleton _, ?_⟩
                intro k hk1 hk2
                simp only [fetchedKeys, List.filterMap_cons, List.filterMap_nil,
                  List.mem_cons, List.not_mem_nil, or_false] at hk2
                subst hk2
                exact hkey hk1
              · rw [runLoop_step_ok hd hres hv hf hwr] at h
                refine ih pn.1 fsx (cp.1.identity_key :: visited) _ _ r evs h
                  ?_ ?_
                · rw [fetchedKeys_append]
                  simp only [List.nodup_append]
                  refine ⟨hnd, ?_, ?_⟩
                  · simp [fetchedKeys]
                  · intro k hk1 hk2
                    simp only [fetchedKeys, List.filterMap_cons,
                      List.filterMap_nil, List.mem_cons, List.not_mem_nil,
                      or_false] at hk2
                    subst hk2
                    exact hkey hk1
                · intro k hk
                  rw [fetchedKeys_append] at hk
                  rcases List.mem_append.mp hk with hk1 | hk1
                  · exact List.mem_cons_of_mem _ (hsub _ hk1)
                  · simp only [fetchedKeys, List.filterMap_cons,
                      List.filterMap_nil, List.mem_cons, List.not_mem_nil,
                      or_false] at hk1
                    subst hk1
                    exact List.mem_cons_self _ _

theorem ne_of_len_lt {d0 d : LawNameDictionary} (h : d0.length < d.length) :
    d ≠ d0 := by
  intro he
  rw [he] at h
  exact lt_irrefl _ h

theorem runLoop_dict_spec (api : Api)
    (choose : List LawCandidate → Option Nat) (d0 : LawNameDictionary) :
    ∀ fuel (p : Processor) (fs : FS) (visited : List (List Char))
      (queue : List QEntry) (trace : List Event) (p' : Processor) (fs' : FS)
      (evs : List Event),
      runLoop api choose fuel p fs visited queue trace =
        some (.ok (p', fs'), evs) →
      DirtyInv d0 p →
      Event.savedDict ∉ trace →
      ((Event.savedDict ∈ evs ↔ p'.dictionary ≠ d0) ∧
        (Event.savedDict ∉ evs → fs'.dictFile = fs.dictFile) ∧
        (Event.savedDict ∈ evs → fs'.dictFile = some p'.dictionary)) := by
  intro fuel
  induction fuel with
  | zero =>
    intro p fs visited queue trace p' fs' evs h
    cases h
  | succ fuel ih =>
    intro p fs visited queue trace p' fs' evs h hinv htr
    cases queue with
    | nil =>
      rw [runLoop_drain] at h
      injection h with h
      rw [Prod.mk.injEq] at h
      obtain ⟨hr, hevs⟩ := h
      injection hr with hr
      rw [Prod.mk.injEq] at hr
      obtain ⟨hp', hfs'⟩ := hr
      subst hp'
      subst hfs'
      subst hevs
      have hsu := save_unresolved_refs_spec p fs
      have hsd := save_dictionary_spec p (save_unresolved_refs p fs).1
      have hsu_nodict : Event.savedDict ∉ (save_unresolved_refs p fs).2 := by
        rcases hsu.2 with he | he <;> rw [he] <;> simp
      rcases hinv with ⟨h1, h2⟩ | ⟨h1, h2⟩
      · obtain ⟨hev, hfile, heqp⟩ := hsd.2.2.2.2.2 h1
        constructor
        · constructor
          · intro hmem
            rcases List.mem_append.mp hmem with hmem | hmem
            · rcases List.mem_append.mp hmem with hmem | hmem
              · exact absurd hmem htr
              · exact absurd hmem hsu_nodict
            · rw [hev] at hmem
              cases hmem
          · intro hne
            rw [heqp] at hne
            exact absurd h2 hne
        · refine ⟨fun _ => ?_, fun hmem => ?_⟩
          · rw [hfile, hsu.1.1]
          · rcases List.mem_append.mp hmem with hmem | hmem
            · rcases List.mem_append.mp hmem with hmem | hmem
              · exact absurd hmem htr
              · exact absurd hmem hsu_nodict
            · rw [hev] at hmem
              cases hmem
      · obtain ⟨hev, hfile⟩ := hsd.2.2.2.2.1 h1
        have hmem : Event.savedDict ∈
            trace ++ (save_unresolved_refs p fs).2 ++
              (save_dictionary p (save_unresolved_refs p fs).1).2.2 := by
          rw [hev]
          exact List.mem_append.mpr (Or.inr (List.mem_cons_self _ _))
        constructor
        · constructor
          · intro _
            rw [hsd.2.2.1]
            exact ne_of_len_lt h2
          · intro _
            exact hmem
        · refine ⟨fun hno => absurd hmem hno, fun _ => ?_⟩
          rw [hfile, hsd.2.2.1]
    | cons entry rest =>
      obtain ⟨title, depth, source⟩ := entry
      by_cases hd : depth > p.max_depth
      · rw [runLoop_skip_depth hd] at h
        exact ih p fs visited rest trace p' fs' evs h hinv htr
      · rcases hres : resolve_candidate api choose p title with e | cp
        · rw [runLoop_resolve_err hd hres] at h
          split_ifs at h
          · injection h with h
            rw [Prod.mk.injEq] at h
            cases h.1
          · exact ih _ fs visited rest trace p' fs' evs h hinv htr
        · by_cases hv : cp.1.identity_key ∈ visited
          · rw [runLoop_visited hd hres hv] at h
            exact ih cp.2 fs visited rest trace p' fs' evs h
              (resolve_candidate_DirtyInv hinv hres) htr
          · rcases hf : api.fetch cp.1 with e | contents
            · rw [runLoop_fetch_err hd hres hv hf] at h
              injection h with h
              rw [Prod.mk.injEq] at h
              cases h.1
            · rcases hwr : write_law_note cp.2 fs contents depth
                  with ⟨fsx, wres⟩
              rcases wres with e2 | pn
              · rw [runLoop_write_err hd hres hv hf hwr] at h
                injection h with h
                rw [Prod.mk.injEq] at h
                cases h.1
              · rw [runLoop_step_ok hd hres hv hf hwr] at h
                have hinv2 : DirtyInv d0 pn.1 :=
                  write_law_note_DirtyInv
                    (resolve_candidate_DirtyInv hinv hres) hwr
                have htr2 : Event.savedDict ∉
                    trace ++ [.fetched cp.1.identity_key, .wroteNote pn.2] := by
                  intro hmem
                  rcases List.mem_append.mp hmem with hm | hm
                  · exact htr hm
                  · simp at hm
                obtain ⟨ha, hb, hc⟩ := ih pn.1 fsx
                  (cp.1.identity_key :: visited) _ _ p' fs' evs h hinv2 htr2
                have hfsx : fsx.dictFile = fs.dictFile :=
                  (write_law_note_ok_spec hwr).1
                exact ⟨ha, fun hno => by rw [hb hno, hfsx], hc⟩

theorem saveFree_append {a b : List Event} (ha : saveFree a)
    (hb : saveFree b) : saveFree (a ++ b) := by
  intro e he
  rcases List.mem_append.mp he with h | h
  · exact ha e h
  · exact hb e h

theorem saveFree_crawl_events {k name : List Char} :
    saveFree [Event.fetched k, Event.wroteNote name] := by
  intro e he
  simp only [List.mem_cons, List.not_mem_nil, or_false] at he
  rcases he with rfl | rfl
  · rfl
  · rfl

theorem runLoop_saves_last (api : Api)
    (choose : List LawCandidate → Option Nat) :
    ∀ fuel (p : Processor) (fs : FS) (visited : List (List Char))
      (queue : List QEntry) (trace : List Event)
      (r : Except RunErr (Processor × FS)) (evs : List Event),
      runLoop api choose fuel p fs visited queue trace = some (r, evs) →
      saveFree trace →
      ∃ evs0 tail, evs = evs0 ++ tail ∧ saveFree evs0 ∧
        (∀ err, r = .error err → tail = []) ∧
        List.Sublist tail [Event.savedStore, Event.savedDict] := by
  intro fuel
  induction fuel with
  | zero =>
    intro p fs visited queue trace r evs h
    cases h
  | succ fuel ih =>
    intro p fs visited queue trace r evs h htr
    cases queue with
    | nil =>
      rw [runLoop_drain] at h
      injection h with h
      rw [Prod.mk.injEq] at h
      obtain ⟨hr, hevs⟩ := h
      refine ⟨trace, (save_unresolved_refs p fs).2 ++
        (save_dictionary p (save_unresolved_refs p fs).1).2.2,
        by rw [← hevs, List.append_assoc], htr, ?_, ?_⟩
      · intro err herr
        rw [herr] at hr
        cases hr
      · rcases (save_unresolved_refs_spec p fs).2 with he1 | he1 <;>
          rcases save_dictionary_events p (save_unresolved_refs p fs).1
            with he2 | he2 <;>
          rw [he1, he2]
        · exact List.nil_sublist _
        · exact List.Sublist.cons _ (List.Sublist.refl _)
        · exact List.Sublist.cons₂ _ (List.nil_sublist _)
        · exact List.Sublist.refl _
    | cons entry rest =>
      obtain ⟨title, depth, source⟩ := entry
      by_cases hd : depth > p.max_depth
      · rw [runLoop_skip_depth hd] at h
        exact ih p fs visited rest trace r evs h htr
      · rcases hres : resolve_candidate api choose p title with e | cp
        · rw [runLoop_resolve_err hd hres] at h
          split_ifs at h
          · injection h with h
            rw [Prod.mk.injEq] at h
            exact ⟨trace, [], by rw [← h.2, List.append_nil], htr,
              fun _ _ => rfl, List.nil_sublist _⟩
          · exact ih _ fs visited rest trace r evs h htr
        · by_cases hv : cp.1.identity_key ∈ visited
          · rw [runLoop_visited hd hres hv] at h
            exact ih cp.2 fs visited rest trace r evs h htr
          · rcases hf : api.fetch cp.1 with e | contents
            · rw [runLoop_fetch_err hd hres hv hf] at h
              injection h with h
              rw [Prod.mk.injEq] at h
              refine ⟨trace ++ [Event.fetched cp.1.identity_key], [],
                by rw [← h.2, List.append_nil], ?_, fun _ _ => rfl,
                List.nil_sublist _⟩
              refine saveFree_append htr ?_
              intro e2 he2
              simp only [List.mem_cons, List.not_mem_nil, or_false] at he2
              subst he2
              rfl
            · rcases hwr : write_law_note cp.2 fs contents depth
                  with ⟨fsx, wres⟩
              rcases wres with e2 | pn
              · rw [runLoop_write_err hd hres hv hf hwr] at h
                injection h with h
                rw [Prod.mk.injEq] at h
                refine ⟨trace ++ [Event.fetched cp.1.identity_key], [],
                  by rw [← h.2, List.append_nil], ?_, fun _ _ => rfl,
                  List.nil_sublist _⟩
                refine saveFree_append htr ?_
                intro e3 he3
                simp only [List.mem_cons, List.not_mem_nil, or_false] at he3
                subst he3
                rfl
              · rw [runLoop_step_ok hd hres hv hf hwr] at h
                exact ih pn.1 fsx (cp.1.identity_key :: visited) _ _ r evs h
                  (saveFree_append htr saveFree_crawl_events)

/-! ### Shape of sanitized file names -/

theorem head?_dropWhile_false {α : Type} {p : α → Bool} :
    ∀ (l : List α) {a : α}, (l.dropWhile p).head? = some a → p a = false := by
  intro l
  induction l with
  | nil => intro a h; cases h
  | cons x xs ih =>
    intro a h
    rw [List.dropWhile_cons] at h
    split_ifs at h with hx
    · exact ih h
    · injection h with h
      subst h
      simpa using hx

theorem trimEndChar_prefixOf (x : Char) (s : List Char) :
    trimEndChar x s <+: s := by
  unfold trimEndChar
  have h : s.reverse.dropWhile (fun c => decide (c = x)) <:+ s.reverse :=
    List.dropWhile_suffix _
  have h2 : (s.reverse.dropWhile (fun c => decide (c = x))).reverse <+:
      s.reverse.reverse := List.reverse_prefix.mpr h
  rwa [List.reverse_reverse] at h2

theorem head?_of_prefixOf {α : Type} {l₁ l₂ : List α} (h : l₁ <+: l₂) {a : α}
    (ha : l₁.head? = some a) : l₂.head? = some a := by
  obtain ⟨t, rfl⟩ := h
  cases l₁ with
  | nil => cases ha
  | cons b bs => simpa using ha

theorem getLast?_trimEndChar {x : Char} {s : List Char} {a : Char}
    (h : (trimEndChar x s).getLast? = some a) : a ≠ x := by
  unfold trimEndChar at h
  rw [List.getLast?_reverse] at h
  have := head?_dropWhile_false _ h
  simpa using this

theorem head?_rustTrim_not_ws {s : List Char} {a : Char}
    (h : (rustTrim s).head? = some a) : rustIsWhitespace a = false := by
  unfold rustTrim at h
  have hpre : ((s.dropWhile rustIsWhitespace).reverse.dropWhile
      rustIsWhitespace).reverse <+: s.dropWhile rustIsWhitespace := by
    have h1 : (s.dropWhile rustIsWhitespace).reverse.dropWhile rustIsWhitespace
        <:+ (s.dropWhile rustIsWhitespace).reverse := List.dropWhile_suffix _
    have h2 : ((s.dropWhile rustIsWhitespace).reverse.dropWhile
        rustIsWhitespace).reverse <+:
        (s.dropWhile rustIsWhitespace).reverse.reverse :=
      List.reverse_prefix.mpr h1
    rwa [List.reverse_reverse] at h2
  exact head?_dropWhile_false _ (head?_of_prefixOf hpre h)

theorem sanitize_no_forbidden {s : List Char} {c : Char}
    (h : c ∈ sanitize_filename s) : forbiddenFileChar c = false := by
  unfold sanitize_filename at h
  have h2 := mem_of_mem_rustTrim (mem_of_mem_trimEndChar h)
  obtain ⟨x, _, hfx⟩ := List.mem_map.mp h2
  by_cases hf : forbiddenFileChar x = true
  · rw [if_pos hf] at hfx
    rw [← hfx]
    rfl
  · rw [if_neg hf] at hfx
    rw [← hfx]
    simpa using hf

theorem sanitize_head_not_ws {s : List Char} {a : Char}
    (h : (sanitize_filename s).head? = some a) : rustIsWhitespace a = false := by
  unfold sanitize_filename at h
  exact head?_rustTrim_not_ws (head?_of_prefixOf (trimEndChar_prefixOf _ _) h)

theorem sanitize_getLast_ne_dot {s : List Char} {a : Char}
    (h : (sanitize_filename s).getLast? = some a) : a ≠ '.' := by
  unfold sanitize_filename at h
  exact getLast?_trimEndChar h

/-- The full crawl outcome on the two-law fixture (fuel 50 is ample). -/
def demoResult : Except RunErr (Processor × FS) × List Event :=
  (runLoop demoApi noChoose 50 demoP emptyFS [] [("民法".data, 0, "民法".data)]
    []).getD (.error .inputErr, [])

/-- The final processor and file system of the fixture crawl. -/
def demoFinal : Processor × FS :=
  match demoResult.1 with
  | .ok pf => pf
  | .error _ => (demoP, emptyFS)

/-! ## The claims -/

/-- C1 (corrected), counterexample: the full-listing scan inserts the raw
statute number of the Patent Act listing item as a dictionary key, yet that
string is not an output of the Title Normalizer. -/
theorem C1_counterexample :
    dictContains (refresh_dictionary_from_api [patentListing] []).1
      "昭和三十四年法律第百二十一号".data = true ∧
    ¬ IsNormalizerOutput "昭和三十四年法律第百二十一号".data :=
  ⟨by decide, not_normalizer_output_of_no_suffix (by decide)⟩

/-- C1 (corrected), amended: keys inserted by alias registration after a
search or fetch are always Title-Normalizer outputs, but the bulk population
from the full-listing scan additionally inserts raw statute numbers and
abbreviations taken verbatim from listing items. -/
theorem C1_dictionary_key_provenance :
    (∀ (dict : LawNameDictionary) (query k : List Char) (c : LawCandidate),
      dictContains (register_candidate_aliases dict query c).1 k = true →
      dictContains dict k = true ∨ IsNormalizerOutput k) ∧
    (∀ (dict : LawNameDictionary) (k : List Char) (law : LawContents),
      dictContains (register_law_contents dict law).1 k = true →
      dictContains dict k = true ∨ IsNormalizerOutput k) ∧
    (∀ (items : List ListingLaw) (dict : LawNameDictionary) (k : List Char),
      dictContains (refresh_dictionary_from_api items dict).1 k = true →
      dictContains dict k = true ∨ IsNormalizerOutput k ∨
        ∃ it ∈ items, it.law_num = some k ∨ it.abbrevName = some k) :=
  ⟨fun _ _ _ _ h => register_candidate_aliases_keys h,
   fun _ _ _ h => register_law_contents_keys h,
   fun _ _ _ h => refresh_dictionary_from_api_keys h⟩

/-- C2 (corrected), counterexample: a lone carriage return survives the
first rewrite but is dropped by the second, so the Link Rewriter is not
idempotent on arbitrary input. -/
theorem C2_counterexample :
    (linkify_markdown (linkify_markdown ['あ', '\r'] ['法'] "laws".data).1
        ['法'] "laws".data).1 ≠
      (linkify_markdown ['あ', '\r'] ['法'] "laws".data).1 := by decide

/-- C2 (corrected), amended: the Link Rewriter is idempotent whenever the
input's lines carry no stray carriage return and neither the sanitized
current title nor the link directory injects a newline or carriage return
into the emitted links. -/
theorem C2_linkify_idempotent (md title dir : List Char)
    (hmd : ∀ l ∈ rustLines md, '\r' ∉ l)
    (ht1 : '\n' ∉ sanitize_filename title)
    (ht2 : '\r' ∉ sanitize_filename title)
    (hd1 : '\n' ∉ obsidian_dir dir) (hd2 : '\r' ∉ obsidian_dir dir) :
    (linkify_markdown (linkify_markdown md title dir).1 title dir).1 =
      (linkify_markdown md title dir).1 :=
  linkify_markdown_idem_aux md title dir hmd ht1 ht2 hd1 hd2

/-- C2 witness: idempotence at the repository's own regression-test input. -/
theorem C2_linkify_idempotent_witness :
    (linkify_markdown (linkify_markdown
        "民法第2条及び第3条を参照する。".data "刑法".data "laws".data).1
      "刑法".data "laws".data).1 =
    (linkify_markdown "民法第2条及び第3条を参照する。".data "刑法".data
      "laws".data).1 :=
  C2_linkify_idempotent _ _ _ (by decide) (by decide) (by decide) (by decide)
    (by decide)

/-- C3 (confirmed): an empty search result is a resolution error, and a
resolution failure aborts the run exactly when it hits the depth-0 entry;
deeper failures append an UnresolvedRef (with the fixed sample context) and
the loop continues with the remaining queue. -/
theorem C3_resolution_failure :
    (∀ (api : Api) (choose : List LawCandidate → Option Nat) (p : Processor)
      (title : List Char),
      lookup_dictionary p title = none → api.search title = .ok [] →
      resolve_candidate api choose p title = .error (.notFound title)) ∧
    (∀ (api : Api) (choose : List LawCandidate → Option Nat) (p : Processor)
      (title : List Char) (c1 c2 : LawCandidate) (cs : List LawCandidate),
      lookup_dictionary p title = none →
      api.search title = .ok (c1 :: c2 :: cs) →
      p.non_interactive = true →
      ((c1 :: c2 :: cs).filter (fun c => c.law_title = title)).length ≠ 1 →
      resolve_candidate api choose p title = .error (.ambiguous title)) ∧
    (∀ (api : Api) (choose : List LawCandidate → Option Nat) (fuel : Nat)
      (p : Processor) (fs : FS) (visited : List (List Char))
      (title source : List Char) (depth : Nat) (rest : List QEntry)
      (trace : List Event) (e : RunErr),
      depth ≤ p.max_depth →
      resolve_candidate api choose p title = .error e →
      runLoop api choose (fuel + 1) p fs visited
          ((title, depth, source) :: rest) trace =
        if depth = 0 then some (.error e, trace)
        else
          runLoop api choose fuel
            { p with unresolved_refs := p.unresolved_refs ++
              [⟨source, title, some "参照先法令名の解決失敗".data⟩] }
            fs visited rest trace) := by
  refine ⟨?_, ?_, ?_⟩
  · intro api choose p title h1 h2
    unfold resolve_candidate
    rw [h1, h2]
  · intro api choose p title c1 c2 cs h1 h2 h3 h4
    unfold resolve_candidate
    rw [h1, h2]
    dsimp only
    rw [if_pos h3]
    rcases hfil : (c1 :: c2 :: cs).filter
        (fun c => decide (c.law_title = title)) with _ | ⟨c, cs'⟩
    · rw [hfil]
    · rcases cs' with _ | ⟨c', cs''⟩
      · rw [hfil] at h4
        exact absurd rfl h4
      · rw [hfil]
  · intro api choose fuel p fs visited title source depth rest trace e hle hres
    exact runLoop_resolve_err (by omega) hres

/-- C4 (confirmed): a returned token is never an anaphoric form and never
has fewer than two characters. -/
theorem C4_normalize_rejects (s t : List Char)
    (h : normalize_law_ref_title s = some t) :
    t ∉ anaphoricForms ∧ 2 ≤ t.length := by
  obtain ⟨tok, _, rfl, h1, h2⟩ := normalize_some_spec h
  exact ⟨h1, h2⟩

/-- C4 witness: the normalizer output on the repository's own test input. -/
theorem C4_normalize_rejects_witness :
    "特許法".data ∉ anaphoricForms ∧ 2 ≤ "特許法".data.length :=
  C4_normalize_rejects "旧特許法".data "特許法".data (by decide)

/-- C5 (confirmed): the identity key prefers id over number over title; a
dequeued entry whose resolved key is already visited is dropped before any
fetch or write; and over a whole run the fetched keys are pairwise
distinct, so any statute is fetched (and its note written) at most once. -/
theorem C5_identity_dedup :
    (∀ (c : LawCandidate) (id : List Char), c.law_id = some id →
      c.identity_key = "id:".data ++ id) ∧
    (∀ (c : LawCandidate) (num : List Char), c.law_id = none →
      c.law_num = some num → c.identity_key = "num:".data ++ num) ∧
    (∀ c : LawCandidate, c.law_id = none → c.law_num = none →
      c.identity_key = "title:".data ++ c.law_title) ∧
    (∀ (api : Api) (choose : List LawCandidate → Option Nat) (fuel : Nat)
      (p : Processor) (fs : FS) (visited : List (List Char))
      (title source : List Char) (depth : Nat) (rest : List QEntry)
      (trace : List Event) (cp : LawCandidate × Processor),
      depth ≤ p.max_depth →
      resolve_candidate api choose p title = .ok cp →
      cp.1.identity_key ∈ visited →
      runLoop api choose (fuel + 1) p fs visited
          ((title, depth, source) :: rest) trace =
        runLoop api choose fuel cp.2 fs visited rest trace) ∧
    (∀ (api : Api) (choose : List LawCandidate → Option Nat) (fuel : Nat)
      (p : Processor) (fs : FS) (queue : List QEntry)
      (r : Except RunErr (Processor × FS)) (evs : List Event),
      runLoop api choose fuel p fs [] queue [] = some (r, evs) →
      (fetchedKeys evs).Nodup) := by
  refine ⟨?_, ?_, ?_, ?_, ?_⟩
  · intro c id h
    unfold LawCandidate.identity_key
    rw [h]
    rfl
  · intro c num h1 h2
    unfold LawCandidate.identity_key
    rw [h1, h2]
    rfl
  · intro c h1 h2
    unfold LawCandidate.identity_key
    rw [h1, h2]
    rfl
  · intro api choose fuel p fs visited title source depth rest trace cp
      hle hres hv
    exact runLoop_visited (by omega) hres hv
  · intro api choose fuel p fs queue r evs h
    exact runLoop_fetchedKeys_nodup api choose fuel p fs [] queue [] r evs h
      List.nodup_nil (fun k hk => absurd hk (List.not_mem_nil k))

/-- C6 (confirmed): starting from a clean dirty flag, a completed run
rewrites the dictionary file exactly when the dictionary changed (at least
one insertion happened); with no insertion the file is untouched. -/
theorem C6_dictionary_persistence (api : Api)
    (choose : List LawCandidate → Option Nat) (fuel : Nat) (p : Processor)
    (fs : FS) (queue : List QEntry) (p' : Processor) (fs' : FS)
    (evs : List Event) (hclean : p.dictionary_dirty = false)
    (hrun : runLoop api choose fuel p fs [] queue [] =
      some (.ok (p', fs'), evs)) :
    (Event.savedDict ∈ evs ↔ p'.dictionary ≠ p.dictionary) ∧
    (Event.savedDict ∉ evs → fs'.dictFile = fs.dictFile) ∧
    (Event.savedDict ∈ evs → fs'.dictFile = some p'.dictionary) :=
  runLoop_dict_spec api choose p.dictionary fuel p fs [] queue [] p' fs' evs
    hrun (Or.inl ⟨hclean, rfl⟩) (List.not_mem_nil _)

/-- C6 witness: on the two-law crawl fixture the dictionary gains keys and
the save event appears. -/
theorem C6_dictionary_persistence_witness :
    (Event.savedDict ∈ demoResult.2 ↔
      demoFinal.1.dictionary ≠ demoP.dictionary) ∧
    (Event.savedDict ∉ demoResult.2 →
      demoFinal.2.dictFile = emptyFS.dictFile) ∧
    (Event.savedDict ∈ demoResult.2 →
      demoFinal.2.dictFile = some demoFinal.1.dictionary) :=
  C6_dictionary_persistence demoApi noChoose 50 demoP emptyFS
    [("民法".data, 0, "民法".data)] demoFinal.1 demoFinal.2 demoResult.2
    rfl rfl

/-- C7 (corrected), counterexample: the source trims whitespace before the
trailing periods, so removing a final period can expose trailing
whitespace in the returned name. -/
theorem C7_counterexample :
    (sanitize_filename "a .".data).getLast? = some ' ' ∧
    rustIsWhitespace ' ' = true := by decide

/-- C7 (corrected), amended: every forbidden character is replaced by an
underscore, the result never ends with a period, and it never starts with
whitespace (but it can end with whitespace). -/
theorem C7_sanitize_shape (s : List Char) :
    (∀ c ∈ sanitize_filename s, forbiddenFileChar c = false) ∧
    (∀ c, (sanitize_filename s).getLast? = some c → c ≠ '.') ∧
    (∀ c, (sanitize_filename s).head? = some c → rustIsWhitespace c = false) :=
  ⟨fun _ hc => sanitize_no_forbidden hc,
   fun _ hc => sanitize_getLast_ne_dot hc,
   fun _ hc => sanitize_head_not_ws hc⟩

/-- C8 (confirmed): with the no-overwrite flag set and the note file
present, `write_law_note` returns the error and leaves the file system
exactly as it was. -/
theorem C8_no_overwrite (p : Processor) (fs : FS) (law : LawContents)
    (depth : Nat) (hflag : p.no_overwrite = true)
    (hex : (fsGetNote fs (joinPath p.output_dir
      (sanitize_filename law.law_title ++ ['.', 'm', 'd']))).isSome = true) :
    write_law_note p fs law depth =
      (fs, .error (.noteExists (joinPath p.output_dir
        (sanitize_filename law.law_title ++ ['.', 'm', 'd'])))) := by
  unfold write_law_note
  dsimp only
  rw [if_pos ⟨hflag, hex⟩]

/-- C8 witness: the fixture file system already holds `laws/民法.md`. -/
theorem C8_no_overwrite_witness :
    write_law_note c8p c8fs c8law 0 =
      (c8fs, .error (.noteExists (joinPath c8p.output_dir
        (sanitize_filename c8law.law_title ++ ['.', 'm', 'd'])))) :=
  C8_no_overwrite c8p c8fs c8law 0 rfl (by decide)

/-- C9 (confirmed): every returned token is a contiguous substring of the
punctuation-trimmed input and ends with one of the statute-type
suffixes. -/
theorem C9_normalize_shape (s t : List Char)
    (h : normalize_law_ref_title s = some t) :
    t <:+: trimMatches normTrimChar s ∧ endsWithLawSuffix t = true :=
  ⟨normalize_infix_trimmed h, normalize_endsWith h⟩

/-- C9 witness: the shape facts at the repository's own test input. -/
theorem C9_normalize_shape_witness :
    "特許法".data <:+: trimMatches normTrimChar "旧特許法".data ∧
    endsWithLawSuffix "特許法".data = true :=
  C9_normalize_shape "旧特許法".data "特許法".data (by decide)

/-- C10 (confirmed): along any run the state-file saves can only form a
final `savedStore`-then-`savedDict` suffix of the event trace, and when the
run ends in an error that suffix is empty — neither state file is
written. -/
theorem C10_deferred_saves (api : Api)
    (choose : List LawCandidate → Option Nat) (fuel : Nat) (p : Processor)
    (fs : FS) (visited : List (List Char)) (queue : List QEntry)
    (trace : List Event) (r : Except RunErr (Processor × FS))
    (evs : List Event)
    (hrun : runLoop api choose fuel p fs visited queue trace = some (r, evs))
    (htr : saveFree trace) :
    ∃ evs0 tail, evs = evs0 ++ tail ∧ saveFree evs0 ∧
      (∀ err, r = .error err → tail = []) ∧
      List.Sublist tail [Event.savedStore, Event.savedDict] :=
  runLoop_saves_last api choose fuel p fs visited queue trace r evs hrun htr

/-- C10 witness: a root resolution failure ends the run with an error and
an event trace containing no state-file write. -/
theorem C10_deferred_saves_witness :
    ∃ evs0 tail, ([] : List Event) = evs0 ++ tail ∧ saveFree evs0 ∧
      (∀ err, (Except.error (RunErr.api "e".data) :
        Except RunErr (Processor × FS)) = .error err → tail = []) ∧
      List.Sublist tail [Event.savedStore, Event.savedDict] :=
  C10_deferred_saves noApi noChoose 5 failP emptyFS [] [("x".data, 0, "x".data)]
    [] (.error (.api "e".data)) [] rfl
    (fun e he => absurd he (List.not_mem_nil e))
